import Mathlib

/-!
Verification of the TOML-patching core of `run_mcp_server.js`
(repository alanse-inc/mcp-openmanus-server).

The configuration document is modelled as a list of characters.  The
JavaScript string/regex operations used by the source are embedded
directly:

* `String.prototype.replace(regex, str)` replaces the leftmost match and
  processes `$`-patterns (`$$`, `$&`, backtick, `$'`, `$n`) inside the
  replacement string (`subst` below);
* `\s` / `.` follow the JavaScript classes (all Unicode white space
  including line terminators, resp. everything; the relevant regexes
  carry the `s` flag, so the unescaped `.` that the source interpolates
  into section patterns matches any character — `patAgrees` below);
* `RegExp.prototype.exec` with the `g` flag yields non-overlapping
  matches left to right (`nestedScanFound`, `nestedCollectAux`);
* `Number(value)` string-to-number parsing for the quoting rule
  (`jsNumeric`).

Section names and keys are interpolated into regexes unescaped by the
source; the embedding treats every pattern character other than the
dots the source itself constructs as a literal, which is faithful for
segments without regex metacharacters (the theorems below restrict to
such segments via `safeSeg`, matching every path in `ENV_MAPPINGS`).
-/

namespace TomlPatch

/-- Configuration document text, one JavaScript UTF-16-ish character per entry. -/
abbrev Str := List Char

/-- Shorthand turning a Lean string literal into the character-list model. -/
def S (s : String) : Str := s.data

/-- JavaScript white space (`\s`, `String.prototype.trim`, `Number` trimming):
WhiteSpace ∪ LineTerminator of ECMA-262. -/
def jsWs (c : Char) : Bool :=
  c = ' ' || c = '\t' || c = '\n' || c = '\r' || c = '\x0b' || c = '\x0c' ||
  c = '\u00a0' || c = '\u1680' ||
  c = '\u2000' || c = '\u2001' || c = '\u2002' || c = '\u2003' || c = '\u2004' ||
  c = '\u2005' || c = '\u2006' || c = '\u2007' || c = '\u2008' || c = '\u2009' ||
  c = '\u200a' || c = '\u2028' || c = '\u2029' || c = '\u202f' || c = '\u205f' ||
  c = '\u3000' || c = '\ufeff'

/-- JavaScript line terminators (what `.` without the `s` flag does not match). -/
def lineTerm (c : Char) : Bool :=
  c = '\n' || c = '\r' || c = '\u2028' || c = '\u2029'

def isDigitC (c : Char) : Bool := '0' ≤ c && c ≤ '9'

def isHexC (c : Char) : Bool :=
  isDigitC c || ('a' ≤ c && c ≤ 'f') || ('A' ≤ c && c ≤ 'F')

def isOctC (c : Char) : Bool := '0' ≤ c && c ≤ '7'

def isBinC (c : Char) : Bool := c = '0' || c = '1'

/-- `p` begins `s` (literal character comparison). -/
def begWith : Str → Str → Bool
  | [], _ => true
  | _ :: _, [] => false
  | p :: ps, c :: cs => p = c && begWith ps cs

/-- `pat` occurs somewhere in `s` as a literal substring
(JavaScript `String.prototype.includes`). -/
def containsSubstr : Str → Str → Bool
  | [], pat => begWith pat []
  | c :: t, pat => begWith pat (c :: t) || containsSubstr t pat

/-- `String.prototype.trim`. -/
def jsTrim (s : Str) : Str := ((s.dropWhile jsWs).reverse.dropWhile jsWs).reverse

/-- `path.split('.')` (run_mcp_server.js line 92). -/
def splitOnDot : Str → List Str
  | [] => [[]]
  | c :: t =>
    if c = '.' then [] :: splitOnDot t
    else
      match splitOnDot t with
      | [] => [[c]]
      | h :: r => (c :: h) :: r

/-- Exponent part of a string decimal literal: `(e|E) sign? digits`, consuming
the whole remaining input (`expOk []` = no exponent present). -/
def expOk : Str → Bool
  | [] => true
  | c :: t =>
    (c = 'e' || c = 'E') &&
      (let t2 := match t with
        | s :: t' => if s = '+' || s = '-' then t' else s :: t'
        | [] => []
      !t2.isEmpty && t2.all isDigitC)

/-- `StrUnsignedDecimalLiteral` of ECMA-262 StringToNumber, whole-input. -/
def unsignedDecOk (s : Str) : Bool :=
  if s = S "Infinity" then true
  else
    let d1 := s.takeWhile isDigitC
    let r1 := s.drop d1.length
    match r1 with
    | '.' :: r2 =>
      let d2 := r2.takeWhile isDigitC
      let r3 := r2.drop d2.length
      (!d1.isEmpty || !d2.isEmpty) && expOk r3
    | _ => !d1.isEmpty && expOk r1

/-- `0x… / 0o… / 0b…` non-decimal integer literals (no sign allowed). -/
def nonDecOk : Str → Bool
  | '0' :: c :: rest =>
    if c = 'x' || c = 'X' then !rest.isEmpty && rest.all isHexC
    else if c = 'o' || c = 'O' then !rest.isEmpty && rest.all isOctC
    else if c = 'b' || c = 'B' then !rest.isEmpty && rest.all isBinC
    else false
  | _ => false

/-- `!isNaN(Number(value))` for a string value: the trimmed input is empty,
a non-decimal integer literal, or an optionally signed decimal / Infinity. -/
def jsNumeric (v : Str) : Bool :=
  let t := jsTrim v
  t.isEmpty || nonDecOk t ||
    (match t with
      | c :: r => if c = '+' || c = '-' then unsignedDecOk r else unsignedDecOk (c :: r)
      | [] => true)

/-- Value formatting rule of `updateTomlValue` (run_mcp_server.js lines 96-105):
`true`/`false` and numbers stay unquoted, `[...]` literals stay unquoted,
everything else is wrapped in double quotes. -/
def formatValue (v : Str) : Str :=
  if v = S "true" || v = S "false" || jsNumeric v then v
  else if v.head? = some '[' && v.getLast? = some ']' then v
  else '"' :: v ++ ['"']

/-- One pattern character against one text character.  The source builds its
section regexes by raw interpolation, so a `.` inside a section name is the
regex wildcard; with the `s` flag (used on those regexes) it matches any
character.  All other characters are literals (faithful for
regex-metacharacter-free segments). -/
def patChar (p c : Char) : Bool := p = '.' || p = c

/-- The pattern matches a prefix of the text, one character each. -/
def patAgrees : Str → Str → Bool
  | [], _ => true
  | _ :: _, [] => false
  | p :: ps, c :: cs => patChar p c && patAgrees ps cs

/-- Leftmost match of a (wildcard-dot) pattern: returns
(text before the match, matched text, text after the match). -/
def findPat (pat : Str) : Str → Option (Str × Str × Str)
  | [] => if patAgrees pat [] then some ([], [], []) else none
  | c :: t =>
    if patAgrees pat (c :: t) then some ([], (c :: t).take pat.length, (c :: t).drop pat.length)
    else (findPat pat t).map fun r => (c :: r.1, r.2.1, r.2.2)

/-- ECMA-262 GetSubstitution: expand `$`-patterns in a replacement template.
`matched` is the matched substring, `before`/`after` the surrounding text,
`groups` the capture groups of the regex (the source's section regexes have
exactly one group, the key regex none).  The fuel makes the recursion
structural; every step consumes at least one template character, so fuel
`templ.length` (used by `subst`) never runs out. -/
def substF (matched before after : Str) (groups : List Str) : Nat → Str → Str
  | 0, templ => templ
  | _ + 1, [] => []
  | fuel + 1, c0 :: rest =>
    if c0 = '$' then
      match rest with
      | [] => ['$']
      | c :: r =>
        if c = '$' then '$' :: substF matched before after groups fuel r
        else if c = '&' then matched ++ substF matched before after groups fuel r
        else if c = Char.ofNat 96 then  -- '$' then a backquote: text before the match
          before ++ substF matched before after groups fuel r
        else if c = '\'' then
          after ++ substF matched before after groups fuel r
        else if isDigitC c then
          let d1 := c.toNat - 48
          match r with
          | c2 :: r2 =>
            if isDigitC c2 && 1 ≤ 10 * d1 + (c2.toNat - 48) &&
                10 * d1 + (c2.toNat - 48) ≤ groups.length then
              ((groups.get? (10 * d1 + (c2.toNat - 48) - 1)).getD []) ++
                substF matched before after groups fuel r2
            else if 1 ≤ d1 && d1 ≤ groups.length then
              ((groups.get? (d1 - 1)).getD []) ++ substF matched before after groups fuel r
            else '$' :: substF matched before after groups fuel rest
          | [] =>
            if 1 ≤ d1 && d1 ≤ groups.length then ((groups.get? (d1 - 1)).getD []) ++ []
            else ['$', c]
        else '$' :: substF matched before after groups fuel rest
    else c0 :: substF matched before after groups fuel rest

def subst (matched before after : Str) (groups : List Str) (templ : Str) : Str :=
  substF matched before after groups templ.length templ

/-- The key regex `key\s*=\s*.*` (`m` flag) matches at the start of `s`:
the key literally, then optional white space (which in JavaScript includes
newlines), then `=`.  Unanchored on the left — callers scan all suffixes. -/
def keyHeadMatch (key s : Str) : Bool :=
  begWith key s && ((s.drop key.length).dropWhile jsWs).head? == some '='

/-- Index of the leftmost position where the key regex matches. -/
def findKeyIdx (key : Str) : Str → Option Nat
  | [] => if keyHeadMatch key [] then some 0 else none
  | c :: t =>
    if keyHeadMatch key (c :: t) then some 0
    else (findKeyIdx key t).map (· + 1)

/-- `regex.test` for the key regex. -/
def keyTest (key s : Str) : Bool := (findKeyIdx key s).isSome

/-- Length of the key-regex match starting at the head of `s` (meaningful when
`keyHeadMatch key s`): the key, a maximal `\s*` run, `=`, a second maximal
`\s*` run, then `.*` — everything up to the next line terminator. -/
def keyMatchLen (key s : Str) : Nat :=
  let s1 := s.drop key.length
  let w := (s1.takeWhile jsWs).length
  let s2 := s1.drop (w + 1)
  let w2 := (s2.takeWhile jsWs).length
  key.length + w + 1 + w2 + ((s2.drop w2).takeWhile (fun c => !lineTerm c)).length

/-- `s.replace(keyRegex, repl)`: replace the leftmost key-regex match,
processing `$`-patterns in `repl` (the key regex has no capture groups). -/
def replaceKeyFirst (key repl s : Str) : Str :=
  match findKeyIdx key s with
  | none => s
  | some i =>
    let pre := s.take i
    let suf := s.drop i
    let len := keyMatchLen key suf
    pre ++ subst (suf.take len) pre (suf.drop len) [] repl ++ suf.drop len

/-- Lemma fodder: length of `dropWhile` never exceeds the input length. -/
theorem dropWhile_length_le (p : Char → Bool) : ∀ s : Str, (s.dropWhile p).length ≤ s.length
  | [] => Nat.le_refl _
  | c :: t => by
    simp only [List.dropWhile]
    cases p c with
    | true => exact Nat.le_succ_of_le (dropWhile_length_le p t)
    | false => exact Nat.le_refl _

theorem begWith_length_le {p s : Str} (h : begWith p s = true) : p.length ≤ s.length := by
  induction p generalizing s with
  | nil => exact Nat.zero_le _
  | cons a as ih =>
    cases s with
    | nil => simp [begWith] at h
    | cons c cs =>
      simp only [begWith, Bool.and_eq_true] at h
      simpa [List.length] using Nat.succ_le_succ (ih h.2)

/-- One attempt of the nested-section regex
`new RegExp('\\[' + sec + '\\.([^\\]]*)\\]([^\\[]*)', 'g')` at the start of
`s`: the literal prefix `[sec.`, then the first capture group (up to the
required `]`); returns the group and the text following the `]` (the second
group `[^\[]*` is a prefix of that text). -/
def nestedHead? (sec s : Str) : Option (Str × Str) :=
  if begWith ('[' :: sec ++ ['.']) s then
    match (s.drop (sec.length + 2)).drop
        ((s.drop (sec.length + 2)).takeWhile (· ≠ ']')).length with
    | ']' :: tail => some ((s.drop (sec.length + 2)).takeWhile (· ≠ ']'), tail)
    | _ => none
  else none

/-- The non-overlapping left-to-right `exec` scan of the nested-section regex
(run_mcp_server.js lines 155-167), with explicit fuel so the recursion is
structural: each step either jumps past a whole match (strictly shortening
the remaining text, see `nestedHead?_lt`) or advances one character, so fuel
`s.length` (used by `nestedScanFound`) never runs out. -/
def nestedScanFoundF (sec key : Str) : Nat → Str → Bool
  | 0, _ => false
  | fuel + 1, s =>
    match nestedHead? sec s with
    | some r =>
      if r.1 = key then true
      else nestedScanFoundF sec key fuel (r.2.dropWhile (· ≠ '['))
    | none =>
      match s with
      | [] => false
      | _ :: t => nestedScanFoundF sec key fuel t

/-- True iff some match of the nested-section regex over `s` has its first
capture group equal to `key` (run_mcp_server.js lines 155-167). -/
def nestedScanFound (sec key s : Str) : Bool := nestedScanFoundF sec key s.length s

theorem nestedHead?_lt {sec s : Str} {r : Str × Str} (h : nestedHead? sec s = some r) :
    r.2.length < s.length := by
  unfold nestedHead? at h
  split at h
  case isFalse => exact absurd h (by simp)
  case isTrue hb =>
    split at h
    case h_2 => exact absurd h (by simp)
    case h_1 x tl heq =>
      cases h
      show tl.length < s.length
      have hlen : ('[' :: sec ++ ['.']).length ≤ s.length := begWith_length_le hb
      have h3 : ('[' :: sec ++ ['.']).length = sec.length + 2 := by
        simp [List.length_append]
      have h1 := congrArg List.length heq
      simp only [List.length_cons, List.length_drop] at h1
      omega

/-- JavaScript-object upsert: later assignment to an existing key overwrites
its value but keeps the original insertion position. -/
def upsert (k v : Str) : List (Str × Str) → List (Str × Str)
  | [] => [(k, v)]
  | (k', v') :: rest => if k' = k then (k', v) :: rest else (k', v') :: upsert k v rest

/-- The nested-section collection loop of `getConfigSection`
(run_mcp_server.js lines 551-557): same scan as `nestedScanFoundF`, collecting
`group1 ↦ group2.trim()` into an object (fuel as in `nestedScanFoundF`). -/
def nestedCollectAux (sec : Str) : Nat → List (Str × Str) → Str → List (Str × Str)
  | 0, acc, _ => acc
  | fuel + 1, acc, s =>
    match nestedHead? sec s with
    | some r =>
      nestedCollectAux sec fuel (upsert r.1 (jsTrim (r.2.takeWhile (· ≠ '['))) acc)
        (r.2.dropWhile (· ≠ '['))
    | none =>
      match s with
      | [] => acc
      | _ :: t => nestedCollectAux sec fuel acc t

def nestedCollect (sec : Str) (s : Str) : List (Str × Str) := nestedCollectAux sec s.length [] s

/-- The shared found-section update of `updateTomlValue`
(run_mcp_server.js lines 116-127 for the nested case, 142-152 for the plain
case): locate the section via `\[name\]([^\[]*)` (leftmost), then replace the
first key-regex match inside the captured span, or append
`\n key = value` to the span, and splice the rewritten section back with
`content.replace` (whose replacement string is `$`-processed). -/
def setInFoundSection (secName key fv content : Str) : Option Str :=
  match findPat ('[' :: secName ++ [']']) content with
  | none => none
  | some (pre, hdr, tail) =>
    let span := tail.takeWhile (· ≠ '[')
    let rest := tail.dropWhile (· ≠ '[')
    let newSpan :=
      if keyTest key span then
        replaceKeyFirst key (key ++ ' ' :: '=' :: ' ' :: fv) span
      else span ++ '\n' :: key ++ ' ' :: '=' :: ' ' :: fv
    some (pre ++ subst (hdr ++ span) pre rest [span] ('[' :: secName ++ ']' :: newSpan) ++ rest)

/-- `updateTomlValue(content, path, value)` (run_mcp_server.js lines 90-180).
Paths with more than two `.`-separated segments use `parts[0].parts[1]` as a
nested-section name and `parts[2]` as the key (further segments are ignored);
two-segment paths use `[parts[0]]`, falling back to the nested-section scan
and then to appending a fresh section; any other arity returns the content
unchanged. -/
def updateTomlValue (content path value : Str) : Str :=
  let pathParts := splitOnDot path
  let fv := formatValue value
  if pathParts.length > 2 then
    let ns := pathParts.getD 0 [] ++ '.' :: pathParts.getD 1 []
    let key := pathParts.getD 2 []
    match setInFoundSection ns key fv content with
    | some r => r
    | none => content ++ '\n' :: '[' :: ns ++ ']' :: '\n' :: key ++ ' ' :: '=' :: ' ' :: fv ++ ['\n']
  else if pathParts.length == 2 then
    let sec := pathParts.getD 0 []
    let key := pathParts.getD 1 []
    match setInFoundSection sec key fv content with
    | some r => r
    | none =>
      if nestedScanFound sec key content then content
      else content ++ '\n' :: '[' :: sec ++ ']' :: '\n' :: key ++ ' ' :: '=' :: ' ' :: fv ++ ['\n']
  else content

/-- `getConfigSection(section)` (run_mcp_server.js lines 537-568), with the
file read modelled as an `Option` input (`none` = unreadable).  Top-level hit
returns the trimmed span; otherwise the nested scan is collected; an empty
collection yields `none`. -/
def getConfigSection (sec : Str) (content? : Option Str) :
    Option (Str ⊕ List (Str × Str)) :=
  match content? with
  | none => none
  | some content =>
    match findPat ('[' :: sec ++ [']']) content with
    | some (_, _, tail) => some (.inl (jsTrim (tail.takeWhile (· ≠ '['))))
    | none =>
      let l := nestedCollect sec content
      if l.isEmpty then none else some (.inr l)

/-- Leftmost match of `key\s*=\s*"([^"]*)"` in `s`, returning the capture
group (used for `engine_url` / `engine` in `checkSearchEngineSettings`). -/
def quotedHeadMatch (key s : Str) : Option Str :=
  if begWith key s then
    match (s.drop key.length).dropWhile jsWs with
    | '=' :: s2 =>
      match s2.dropWhile jsWs with
      | '"' :: s3 =>
        let g := s3.takeWhile (· ≠ '"')
        if (s3.drop g.length).head? = some '"' then some g else none
      | _ => none
    | _ => none
  else none

def quotedValFirst (key : Str) : Str → Option Str
  | [] => quotedHeadMatch key []
  | c :: t =>
    match quotedHeadMatch key (c :: t) with
    | some g => some g
    | none => quotedValFirst key t

/-- `content.match(/key\s*=\s*\d+/)` existence test used by
`checkBrowserSettings` (note: at least one digit must follow). -/
def numHeadMatch (key s : Str) : Bool :=
  begWith key s &&
    (match (s.drop key.length).dropWhile jsWs with
      | '=' :: s2 =>
        match s2.dropWhile jsWs with
        | c :: _ => isDigitC c
        | [] => false
      | _ => false)

def numKeyTest (key : Str) : Str → Bool
  | [] => numHeadMatch key []
  | c :: t => numHeadMatch key (c :: t) || numKeyTest key t

/-- `content.replace(/\[sec\]([^\[]*)/s, templ)` — leftmost section match,
`$`-processed template (the backfill passes use `$1` to re-emit the span). -/
def replaceSecOnce (sec templ content : Str) : Str :=
  match findPat ('[' :: sec ++ [']']) content with
  | none => content
  | some (pre, hdr, tail) =>
    let span := tail.takeWhile (· ≠ '[')
    let rest := tail.dropWhile (· ≠ '[')
    pre ++ subst (hdr ++ span) pre rest [span] templ ++ rest

/-- Default `[search]` block appended when the section is missing
(run_mcp_server.js lines 398-405). -/
def searchDefaultsBlock : Str :=
  S "\n[search]\nengine = \"google\"\nengine_url = \"https://www.google.com\"\nlang = \"ja\"\ncountry = \"jp\"\n"

/-- Engine-name → default URL lookup (run_mcp_server.js lines 420-427). -/
def defaultUrlFor (engine : Str) : Str :=
  if engine = S "bing" then S "https://www.bing.com"
  else if engine = S "duckduckgo" then S "https://duckduckgo.com"
  else if engine = S "yahoo" then S "https://search.yahoo.com"
  else S "https://www.google.com"

/-- Pure content transformation of `checkSearchEngineSettings`
(run_mcp_server.js lines 388-454); the URL-format branch only warns. -/
def checkSearchEngineSettings (content : Str) : Str :=
  if !containsSubstr content (S "[search]") then content ++ searchDefaultsBlock
  else
    match quotedValFirst (S "engine_url") content with
    | none =>
      let engine := (quotedValFirst (S "engine") content).getD (S "google")
      replaceSecOnce (S "search")
        (S "[search]$1engine_url = \"" ++ defaultUrlFor engine ++ S "\"\n") content
    | some _ => content

/-- Default `[browser]` block appended when the section is missing
(run_mcp_server.js lines 467-475). -/
def browserDefaultsBlock : Str :=
  S "\n[browser]\nheadless = false\ndisable_security = true\ntimeout = 30000\nretry_count = 3\nretry_delay = 1000\n"

/-- Pure content transformation of `checkBrowserSettings`
(run_mcp_server.js lines 457-516).  Each backfill decides by matching the
whole document; the proxy checks only warn and never modify content. -/
def checkBrowserSettings (content : Str) : Str :=
  if !containsSubstr content (S "[browser]") then content ++ browserDefaultsBlock
  else
    let c1 := if numKeyTest (S "timeout") content then content
      else replaceSecOnce (S "browser") (S "[browser]$1timeout = 30000\n") content
    let c2 := if numKeyTest (S "retry_count") c1 then c1
      else replaceSecOnce (S "browser") (S "[browser]$1retry_count = 3\n") c1
    let c3 := if numKeyTest (S "retry_delay") c2 then c2
      else replaceSecOnce (S "browser") (S "[browser]$1retry_delay = 1000\n") c2
    c3

/-- `ENV_MAPPINGS` (run_mcp_server.js lines 24-81) in declaration order
(Object.entries preserves string-key insertion order). -/
def ENV_MAPPINGS : List (String × String) :=
  [("OPENMANUS_LLM_MODEL", "llm.model"),
   ("OPENMANUS_LLM_BASE_URL", "llm.base_url"),
   ("OPENAI_API_KEY", "llm.api_key"),
   ("OPENMANUS_LLM_API_KEY", "llm.api_key"),
   ("OPENMANUS_LLM_MAX_TOKENS", "llm.max_tokens"),
   ("OPENMANUS_LLM_TEMPERATURE", "llm.temperature"),
   ("OPENMANUS_LLM_API_TYPE", "llm.api_type"),
   ("OPENMANUS_LLM_API_VERSION", "llm.api_version"),
   ("OPENMANUS_LLM_OR_SITE_URL", "llm.openrouter.site_url"),
   ("OPENMANUS_LLM_OR_HTTP_REFERER", "llm.openrouter.http_referer"),
   ("OPENMANUS_VISION_MODEL", "llm.vision.model"),
   ("OPENMANUS_VISION_BASE_URL", "llm.vision.base_url"),
   ("OPENMANUS_VISION_API_KEY", "llm.vision.api_key"),
   ("OPENMANUS_VISION_MAX_TOKENS", "llm.vision.max_tokens"),
   ("OPENMANUS_VISION_TEMPERATURE", "llm.vision.temperature"),
   ("OPENMANUS_VISION_API_TYPE", "llm.vision.api_type"),
   ("OPENMANUS_BROWSER_HEADLESS", "browser.headless"),
   ("OPENMANUS_BROWSER_DISABLE_SECURITY", "browser.disable_security"),
   ("OPENMANUS_BROWSER_CHROME_PATH", "browser.chrome_instance_path"),
   ("OPENMANUS_BROWSER_WSS_URL", "browser.wss_url"),
   ("OPENMANUS_BROWSER_CDP_URL", "browser.cdp_url"),
   ("OPENMANUS_BROWSER_TIMEOUT", "browser.timeout"),
   ("OPENMANUS_BROWSER_RETRY_COUNT", "browser.retry_count"),
   ("OPENMANUS_BROWSER_RETRY_DELAY", "browser.retry_delay"),
   ("OPENMANUS_BROWSER_EXTRA_ARGS", "browser.extra_chromium_args"),
   ("OPENMANUS_PROXY_SERVER", "browser.proxy.server"),
   ("OPENMANUS_PROXY_USERNAME", "browser.proxy.username"),
   ("OPENMANUS_PROXY_PASSWORD", "browser.proxy.password"),
   ("OPENMANUS_SEARCH_ENGINE", "search.engine"),
   ("OPENMANUS_SEARCH_ENGINE_URL", "search.engine_url"),
   ("OPENMANUS_SEARCH_FALLBACK", "search.fallback_engines"),
   ("OPENMANUS_SEARCH_RETRY_DELAY", "search.retry_delay"),
   ("OPENMANUS_SEARCH_MAX_RETRIES", "search.max_retries"),
   ("OPENMANUS_SEARCH_LANG", "search.lang"),
   ("OPENMANUS_SEARCH_COUNTRY", "search.country"),
   ("OPENMANUS_SANDBOX_USE", "sandbox.use_sandbox"),
   ("OPENMANUS_SANDBOX_IMAGE", "sandbox.image"),
   ("OPENMANUS_SANDBOX_WORK_DIR", "sandbox.work_dir"),
   ("OPENMANUS_SANDBOX_MEMORY_LIMIT", "sandbox.memory_limit"),
   ("OPENMANUS_SANDBOX_CPU_LIMIT", "sandbox.cpu_limit"),
   ("OPENMANUS_SANDBOX_TIMEOUT", "sandbox.timeout"),
   ("OPENMANUS_SANDBOX_NETWORK", "sandbox.network_enabled"),
   ("OPENMANUS_MCP_SERVER_REFERENCE", "mcp.server_reference")]

/-- The environment-variable application loop of `updateConfigIfNeeded`
(run_mcp_server.js lines 243-248): fold over `ENV_MAPPINGS` in declaration
order, patching for each variable that is set to a non-empty value
(`if (process.env[envVar])` — empty strings are falsy). -/
def applyEnvOverrides (env : String → Option String) (content : Str) : Str :=
  ENV_MAPPINGS.foldl
    (fun c p =>
      match env p.1 with
      | some v => if v = "" then c else updateTomlValue c (S p.2) (S v)
      | none => c)
    content

/-- Segments the source interpolates into its regexes are treated literally;
this is exact when every character is alphanumeric or `_` (true of every
section/key in `ENV_MAPPINGS`). -/
def safeChar (c : Char) : Bool := c.isAlphanum || c = '_'

def safeSeg (s : Str) : Bool := !s.isEmpty && s.all safeChar

/-- A formatted value that the regex splicing handles without corruption:
non-empty, free of `[`, `$` and line terminators, and not ending in white
space (so the `.*` part of the key regex covers exactly the value). -/
def goodVal (s : Str) : Bool :=
  !s.isEmpty && s.all (fun c => !(c = '[' || c = '$' || lineTerm c)) &&
    (match s.getLast? with
      | some c => !jsWs c
      | none => false)

def noDollar (s : Str) : Bool := s.all (· ≠ '$')

/-! ### Character-class facts -/

theorem safeChar_not_ws {c : Char} (h : safeChar c = true) : jsWs c = false := by
  by_contra hw
  rw [Bool.not_eq_false] at hw
  simp only [jsWs, Bool.or_eq_true, decide_eq_true_eq] at hw
  casesm* _ ∨ _ <;> (subst_vars; exact absurd h (by decide))

theorem safeChar_not_lineTerm {c : Char} (h : safeChar c = true) : lineTerm c = false := by
  by_contra hw
  rw [Bool.not_eq_false] at hw
  simp only [lineTerm, Bool.or_eq_true, decide_eq_true_eq] at hw
  casesm* _ ∨ _ <;> (subst_vars; exact absurd h (by decide))

theorem safeChar_ne {c x : Char} (h : safeChar c = true) (hx : safeChar x = false) : c ≠ x := by
  rintro rfl
  rw [h] at hx
  exact Bool.noConfusion hx

/-! ### List helpers -/

theorem takeWhile_all {p : Char → Bool} {x : Str} (h : ∀ ch ∈ x, p ch = true) (y : Str) :
    (x ++ y).takeWhile p = x ++ y.takeWhile p := by
  induction x with
  | nil => rfl
  | cons c t ih =>
    have hc := h c (List.mem_cons_self c t)
    simp only [List.cons_append, List.takeWhile, hc, List.cons.injEq, true_and]
    exact ih fun ch hm => h ch (List.mem_cons_of_mem _ hm)

theorem dropWhile_all {p : Char → Bool} {x : Str} (h : ∀ ch ∈ x, p ch = true) (y : Str) :
    (x ++ y).dropWhile p = y.dropWhile p := by
  induction x with
  | nil => rfl
  | cons c t ih =>
    have hc := h c (List.mem_cons_self c t)
    simp only [List.cons_append, List.dropWhile, hc]
    exact ih fun ch hm => h ch (List.mem_cons_of_mem _ hm)

theorem takeWhile_head_false {p : Char → Bool} {y : Str}
    (h : y = [] ∨ ∃ c t, y = c :: t ∧ p c = false) : y.takeWhile p = [] := by
  rcases h with rfl | ⟨c, t, rfl, hc⟩
  · rfl
  · simp [List.takeWhile, hc]

theorem dropWhile_head_false {p : Char → Bool} {y : Str}
    (h : y = [] ∨ ∃ c t, y = c :: t ∧ p c = false) : y.dropWhile p = y := by
  rcases h with rfl | ⟨c, t, rfl, hc⟩
  · rfl
  · simp [List.dropWhile, hc]

theorem takeWhile_mem_true {p : Char → Bool} : ∀ {l : Str} {ch : Char},
    ch ∈ l.takeWhile p → p ch = true
  | [], _, h => absurd h (List.not_mem_nil _)
  | c :: t, ch, h => by
    rw [List.takeWhile_cons] at h
    by_cases hc : p c = true
    · rw [if_pos hc] at h
      rcases List.mem_cons.mp h with rfl | hm
      · exact hc
      · exact takeWhile_mem_true hm
    · rw [if_neg hc] at h
      exact absurd h (List.not_mem_nil _)

theorem drop_takeWhile_length {p : Char → Bool} : ∀ l : Str,
    l.drop (l.takeWhile p).length = l.dropWhile p
  | [] => rfl
  | c :: t => by
    rw [List.takeWhile_cons, List.dropWhile_cons]
    by_cases hc : p c = true
    · rw [if_pos hc, if_pos hc]
      simpa using drop_takeWhile_length t
    · rw [if_neg hc, if_neg hc]
      simp

theorem dropWhile_head_prop {p : Char → Bool} : ∀ {l : Str} {c : Char} {t : Str},
    l.dropWhile p = c :: t → p c = false
  | [], _, _, h => by simp [List.dropWhile] at h
  | a :: l, c, t, h => by
    rw [List.dropWhile_cons] at h
    by_cases ha : p a = true
    · rw [if_pos ha] at h
      exact dropWhile_head_prop h
    · rw [if_neg ha] at h
      rw [← (List.cons.injEq _ _ _ _ ▸ h : a = c ∧ l = t).1]
      exact Bool.eq_false_iff.mpr ha

theorem getLast?_mem_list : ∀ {l : Str} {a : Char}, l.getLast? = some a → a ∈ l
  | [], _, h => by simp at h
  | [c], a, h => by
    simp only [List.getLast?_singleton, Option.some.injEq] at h
    simp [h]
  | c :: d :: t, a, h => by
    rw [List.getLast?_cons_cons] at h
    exact List.mem_cons_of_mem _ (getLast?_mem_list h)

theorem takeWhile_exists_stop {p : Char → Bool} {x : Str}
    (h : ∃ ch ∈ x, p ch = false) (y : Str) :
    (x ++ y).takeWhile p = x.takeWhile p := by
  induction x with
  | nil => exact absurd h (by simp)
  | cons c t ih =>
    rw [List.cons_append, List.takeWhile_cons, List.takeWhile_cons]
    by_cases hc : p c = true
    · rw [if_pos hc, if_pos hc, List.cons.injEq]
      refine ⟨rfl, ih ?_⟩
      rcases h with ⟨ch, hm, hp⟩
      rcases List.mem_cons.mp hm with rfl | hm'
      · exact absurd hc (by simp [hp])
      · exact ⟨ch, hm', hp⟩
    · rw [if_neg hc, if_neg hc]

theorem dropWhile_exists_stop {p : Char → Bool} {x : Str}
    (h : ∃ ch ∈ x, p ch = false) (y : Str) :
    (x ++ y).dropWhile p = x.dropWhile p ++ y := by
  induction x with
  | nil => exact absurd h (by simp)
  | cons c t ih =>
    rw [List.cons_append, List.dropWhile_cons, List.dropWhile_cons]
    by_cases hc : p c = true
    · rw [if_pos hc, if_pos hc]
      refine ih ?_
      rcases h with ⟨ch, hm, hp⟩
      rcases List.mem_cons.mp hm with rfl | hm'
      · exact absurd hc (by simp [hp])
      · exact ⟨ch, hm', hp⟩
    · rw [if_neg hc, if_neg hc, List.cons_append]

theorem getq_cons_succ {a : Char} {l : List Char} {n : Nat} : (a :: l)[n + 1]? = l[n]? := by
  simp

theorem getq_append_right : ∀ (x : List Char) {y : List Char} (j : Nat),
    (x ++ y)[x.length + j]? = y[j]?
  | [], _, j => by simp
  | c :: x, y, j => by
    have : x.length + 1 + j = (x.length + j) + 1 := by omega
    rw [List.cons_append, List.length_cons, this, getq_cons_succ]
    exact getq_append_right x j

theorem getq_append_left : ∀ (x : List Char) {y : List Char} (j : Nat), j < x.length →
    (x ++ y)[j]? = x[j]?
  | [], _, j, h => absurd h (by simp)
  | c :: x, y, 0, _ => by simp
  | c :: x, y, j + 1, h => by
    rw [List.cons_append, getq_cons_succ, getq_cons_succ]
    exact getq_append_left x j (by simpa using h)

theorem getq_some_of_lt : ∀ (l : List Char) (j : Nat), j < l.length → ∃ c, l[j]? = some c
  | [], j, h => absurd h (by simp)
  | c :: l, 0, _ => ⟨c, by simp⟩
  | c :: l, j + 1, h => by
    rw [getq_cons_succ]
    exact getq_some_of_lt l j (by simpa using h)

theorem getq_mem : ∀ {l : List Char} {j : Nat} {c : Char}, l[j]? = some c → c ∈ l
  | [], j, c, h => by simp at h
  | a :: l, 0, c, h => by
    simp only [List.getElem?_cons_zero, Option.some.injEq] at h
    simp [h]
  | a :: l, j + 1, c, h => by
    rw [getq_cons_succ] at h
    exact List.mem_cons_of_mem _ (getq_mem h)

/-! ### `begWith` and `patAgrees` -/

theorem begWith_append_self : ∀ (p t : Str), begWith p (p ++ t) = true
  | [], _ => rfl
  | c :: p, t => by simp [begWith, begWith_append_self p t]

theorem begWith_ex : ∀ {p s : Str}, begWith p s = true → s = p ++ s.drop p.length
  | [], s, _ => by simp
  | c :: p, [], h => by simp [begWith] at h
  | c :: p, d :: s, h => by
    simp only [begWith, Bool.and_eq_true, decide_eq_true_eq] at h
    obtain ⟨rfl, h2⟩ := h
    simpa using begWith_ex h2

theorem begWith_congr_take : ∀ (p : Str) {s t : Str},
    s.take p.length = t.take p.length → begWith p s = begWith p t
  | [], _, _, _ => rfl
  | c :: p, [], [], _ => rfl
  | c :: p, [], d :: t, h => by simp [List.take] at h
  | c :: p, a :: s, [], h => by simp [List.take] at h
  | c :: p, a :: s, b :: t, h => by
    simp only [List.length_cons, List.take_succ_cons, List.cons.injEq] at h
    obtain ⟨rfl, h2⟩ := h
    simp only [begWith]
    rw [begWith_congr_take p h2]

theorem begWith_append_left {p x : Str} (h : p.length ≤ x.length) (y : Str) :
    begWith p (x ++ y) = begWith p x := by
  refine begWith_congr_take p ?_
  rw [List.take_append_of_le_length h]

theorem patChar_self (p : Char) : patChar p p = true := by
  simp [patChar]

theorem patAgrees_self_append : ∀ (pat t : Str), patAgrees pat (pat ++ t) = true
  | [], _ => rfl
  | c :: pat, t => by simp [patAgrees, patChar_self, patAgrees_self_append pat t]

theorem patAgrees_length_le : ∀ {pat s : Str}, patAgrees pat s = true → pat.length ≤ s.length
  | [], _, _ => Nat.zero_le _
  | c :: pat, [], h => by simp [patAgrees] at h
  | c :: pat, d :: s, h => by
    simp only [patAgrees, Bool.and_eq_true] at h
    simpa using Nat.succ_le_succ (patAgrees_length_le h.2)

theorem patAgrees_nil_eq : ∀ {pat : Str}, patAgrees pat [] = true → pat = []
  | [], _ => rfl
  | c :: pat, h => by simp [patAgrees] at h

theorem patAgrees_congr_take : ∀ (pat : Str) {s t : Str},
    s.take pat.length = t.take pat.length → patAgrees pat s = patAgrees pat t
  | [], _, _, _ => rfl
  | c :: pat, [], [], _ => rfl
  | c :: pat, [], d :: t, h => by simp [List.take] at h
  | c :: pat, a :: s, [], h => by simp [List.take] at h
  | c :: pat, a :: s, b :: t, h => by
    simp only [List.length_cons, List.take_succ_cons, List.cons.injEq] at h
    obtain ⟨rfl, h2⟩ := h
    simp only [patAgrees]
    rw [patAgrees_congr_take pat h2]

theorem patAgrees_eq_begWith : ∀ {pat : Str}, (∀ ch ∈ pat, ch ≠ '.') →
    ∀ (s : Str), patAgrees pat s = begWith pat s
  | [], _, s => by cases s <;> rfl
  | c :: pat, h, [] => rfl
  | c :: pat, h, d :: s => by
    have hc : c ≠ '.' := h c (List.mem_cons_self _ _)
    simp only [patAgrees, begWith, patChar, decide_eq_true_eq]
    rw [patAgrees_eq_begWith (fun ch hm => h ch (List.mem_cons_of_mem _ hm)) s]
    simp [hc]

theorem patAgrees_pointwise : ∀ {pat s : Str}, patAgrees pat s = true →
    ∀ (j : Nat) {p c : Char}, pat[j]? = some p → s[j]? = some c → patChar p c = true
  | [], _, _, j, p, c, hp, _ => by simp at hp
  | a :: pat, [], h, _, _, _, _, _ => by simp [patAgrees] at h
  | a :: pat, b :: s, h, 0, p, c, hp, hc => by
    simp only [List.getElem?_cons_zero, Option.some.injEq] at hp hc
    subst hp; subst hc
    simp only [patAgrees, Bool.and_eq_true] at h
    exact h.1
  | a :: pat, b :: s, h, j + 1, p, c, hp, hc => by
    rw [getq_cons_succ] at hp hc
    simp only [patAgrees, Bool.and_eq_true] at h
    exact patAgrees_pointwise h.2 j hp hc

theorem patAgrees_false_of_mismatch {pat s : Str} {j : Nat} {p c : Char}
    (hp : pat[j]? = some p) (hc : s[j]? = some c) (hm : patChar p c = false) :
    patAgrees pat s = false := by
  cases hpa : patAgrees pat s with
  | false => rfl
  | true => exact absurd (patAgrees_pointwise hpa j hp hc) (by simp [hm])

/-! ### `findPat` soundness and completeness -/

theorem findPat_sound : ∀ {s : Str} {pre m tail : Str},
    findPat pat s = some (pre, m, tail) →
    s = pre ++ m ++ tail ∧ patAgrees pat (m ++ tail) = true ∧ m.length = pat.length ∧
      ∀ i < pre.length, patAgrees pat (s.drop i) = false := by
  intro s
  induction s with
  | nil =>
    intro pre m tail h
    simp only [findPat] at h
    split at h
    case isTrue hpa =>
      obtain ⟨rfl, rfl, rfl⟩ : pre = [] ∧ m = [] ∧ tail = [] := by
        simpa using h.symm
      have hp := patAgrees_nil_eq hpa
      subst hp
      exact ⟨rfl, rfl, rfl, fun i hi => absurd hi (by simp)⟩
    case isFalse => exact absurd h (by simp)
  | cons c t ih =>
    intro pre m tail h
    simp only [findPat] at h
    split at h
    case isTrue hpa =>
      obtain ⟨rfl, rfl, rfl⟩ : pre = [] ∧ m = (c :: t).take pat.length ∧
          tail = (c :: t).drop pat.length := by simpa using h.symm
      refine ⟨by simp, ?_, ?_, by simp⟩
      · rw [List.take_append_drop]
        exact hpa
      · rw [List.length_take]
        exact Nat.min_eq_left (patAgrees_length_le hpa)
    case isFalse hpa =>
      rw [Option.map_eq_some'] at h
      obtain ⟨⟨pre', m', tail'⟩, hfind, heq⟩ := h
      obtain ⟨rfl, rfl, rfl⟩ : pre = c :: pre' ∧ m = m' ∧ tail = tail' := by
        simpa using heq.symm
      obtain ⟨h1, h2, h3, h4⟩ := ih hfind
      refine ⟨by simp [h1], h2, h3, ?_⟩
      intro i hi
      cases i with
      | zero => simpa using Bool.eq_false_iff.mpr hpa
      | succ j =>
        rw [List.drop_succ_cons]
        exact h4 j (by simpa using hi)

theorem findPat_complete : ∀ {pre : Str} {u : Str}, patAgrees pat u = true →
    (∀ i < pre.length, patAgrees pat ((pre ++ u).drop i) = false) →
    findPat pat (pre ++ u) = some (pre, u.take pat.length, u.drop pat.length) := by
  intro pre
  induction pre with
  | nil =>
    intro u hu _
    cases u with
    | nil =>
      have hp := patAgrees_nil_eq hu
      subst hp
      simp [findPat, patAgrees]
    | cons c t => simp [findPat, hu]
  | cons c pre' ih =>
    intro u hu hmin
    have h0 : patAgrees pat (c :: (pre' ++ u)) = false := by
      simpa using hmin 0 (by simp)
    rw [List.cons_append]
    simp only [findPat, h0, Bool.false_eq_true, if_false]
    rw [ih hu fun i hi => by simpa [List.drop_succ_cons] using hmin (i + 1) (by simpa using hi)]
    rfl

theorem findPat_none_sound : ∀ {s : Str}, findPat pat s = none →
    ∀ i, patAgrees pat (s.drop i) = false := by
  intro s
  induction s with
  | nil =>
    intro h i
    simp only [findPat] at h
    split at h
    case isTrue => exact absurd h (by simp)
    case isFalse hpa => simpa using Bool.eq_false_iff.mpr hpa
  | cons c t ih =>
    intro h i
    simp only [findPat] at h
    split at h
    case isTrue => exact absurd h (by simp)
    case isFalse hpa =>
      cases i with
      | zero => simpa using Bool.eq_false_iff.mpr hpa
      | succ j =>
        rw [List.drop_succ_cons]
        exact ih (by simpa using h) j

theorem drop_append_le {x : Str} {i : Nat} (h : i ≤ x.length) (y : Str) :
    (x ++ y).drop i = x.drop i ++ y := by
  rw [List.drop_append_eq_append_drop, Nat.sub_eq_zero_of_le h, List.drop_zero]

theorem drop_ne_nil {x : Str} {i : Nat} (h : i < x.length) : x.drop i ≠ [] := by
  intro hc
  have := List.length_drop i x
  rw [hc] at this
  simp only [List.length_nil] at this
  omega

/-- The final `]` of a section pattern `\[name\]`. -/
theorem pat_last {mid : Str} : ('[' :: mid ++ [']'])[mid.length + 1]? = some ']' := by
  have h : '[' :: mid ++ [']'] = ('[' :: mid) ++ [']'] := by simp
  have h2 : ('[' :: mid).length = mid.length + 1 := by simp
  rw [h, ← h2]
  have h3 := getq_append_right ('[' :: mid) (y := [']']) 0
  simp only [Nat.add_zero] at h3
  rw [h3]
  rfl

/-- Every pattern character of `\[name\]` before the final `]` differs
from `]` when the section name contains no `]`. -/
theorem pat_early_ne {mid : Str} (hmid : ∀ ch ∈ mid, ch ≠ ']') :
    ∀ j < mid.length + 1, ∀ ch, ('[' :: mid ++ [']'])[j]? = some ch → ch ≠ ']' := by
  intro j hj ch hch
  cases j with
  | zero =>
    simp only [List.cons_append, List.getElem?_cons_zero, Option.some.injEq] at hch
    subst hch
    decide
  | succ k =>
    rw [List.cons_append, getq_cons_succ] at hch
    have hk : k < mid.length := by omega
    rw [getq_append_left mid k hk] at hch
    exact hmid ch (getq_mem hch)

/-- A section pattern cannot match while straddling into a copy of text whose
first `name.length + 1` characters contain no `]`: the pattern's final
literal `]` would have to land strictly inside that copy. -/
theorem straddle {mid u w t : Str} (hu : u ≠ []) (hul : u.length < mid.length + 2)
    (hw : ∀ j < mid.length + 1, ∀ ch, w[j]? = some ch → ch ≠ ']')
    (hwl : mid.length + 1 - u.length < w.length) :
    patAgrees ('[' :: mid ++ [']']) (u ++ w ++ t) = false := by
  have hu1 : 1 ≤ u.length := by
    cases u with
    | nil => exact absurd rfl hu
    | cons a b => simp
  set j := mid.length + 1 - u.length with hjdef
  have hidx : mid.length + 1 = u.length + j := by omega
  have htext : (u ++ w ++ t)[mid.length + 1]? = (w ++ t)[j]? := by
    rw [List.append_assoc, hidx]
    exact getq_append_right u j
  have hj_lt : j < w.length := hwl
  rw [getq_append_left w j hj_lt] at htext
  obtain ⟨ch, hch⟩ := getq_some_of_lt w j hj_lt
  rw [hch] at htext
  have hne : ch ≠ ']' := hw j (by omega) ch hch
  refine patAgrees_false_of_mismatch (@pat_last mid) htext ?_
  simp only [patChar, Bool.or_eq_false_iff, decide_eq_false_iff_not]
  exact ⟨by decide, fun h => hne h.symm⟩

/-- Relocating the leftmost section match: if the old document was
`pre ++ u` with no pattern match starting inside `pre`, then in
`pre ++ <literal pattern text> ++ z` the leftmost match is exactly at `pre`.
Used to re-find a section after `content.replace` spliced the rewritten
section (whose header the source re-emits literally) back in. -/
theorem findPre {mid pre u z : Str} (hmid : ∀ ch ∈ mid, ch ≠ ']')
    (hold : ∀ i < pre.length, patAgrees ('[' :: mid ++ [']']) ((pre ++ u).drop i) = false) :
    findPat ('[' :: mid ++ [']']) (pre ++ ('[' :: mid ++ [']']) ++ z) =
      some (pre, '[' :: mid ++ [']'], z) := by
  set pat : Str := '[' :: mid ++ [']'] with hpat
  have hplen : pat.length = mid.length + 2 := by simp [hpat]
  have hmin : ∀ i < pre.length, patAgrees pat ((pre ++ (pat ++ z)).drop i) = false := by
    intro i hi
    by_cases hcase : i + pat.length ≤ pre.length
    · have hle : pat.length ≤ (pre.drop i).length := by
        rw [List.length_drop]
        omega
      have e1 : ((pre ++ (pat ++ z)).drop i).take pat.length =
          ((pre ++ u).drop i).take pat.length := by
        rw [drop_append_le (by omega) (pat ++ z), drop_append_le (by omega) u,
          List.take_append_of_le_length hle, List.take_append_of_le_length hle]
      rw [patAgrees_congr_take pat e1]
      exact hold i hi
    · rw [drop_append_le (le_of_lt hi) (pat ++ z), ← List.append_assoc]
      refine straddle (drop_ne_nil hi) ?_ (pat_early_ne hmid) ?_
      · rw [List.length_drop]
        omega
      · rw [hplen]
        have := List.length_drop i pre
        omega
  have h := @findPat_complete pat pre (pat ++ z)
    (patAgrees_self_append pat z) hmin
  rw [List.append_assoc]
  rw [h]
  have ht : (pat ++ z).take pat.length = pat := List.take_left pat z
  have hd : (pat ++ z).drop pat.length = z := List.drop_left pat z
  rw [ht, hd]

/-- Finding the section appended at the end of a document that had no match:
the leftmost match of `\[name\]` in `c ++ "\n" ++ <pattern text> ++ z` sits
right after the appended newline. -/
theorem findAppend {mid c z : Str} (hmid : ∀ ch ∈ mid, ch ≠ ']')
    (hnone : ∀ i, patAgrees ('[' :: mid ++ [']']) (c.drop i) = false) :
    findPat ('[' :: mid ++ [']']) (c ++ '\n' :: ('[' :: mid ++ [']']) ++ z) =
      some (c ++ ['\n'], '[' :: mid ++ [']'], z) := by
  set pat : Str := '[' :: mid ++ [']'] with hpat
  have hplen : pat.length = mid.length + 2 := by simp [hpat]
  have hform : c ++ '\n' :: pat ++ z = (c ++ ['\n']) ++ (pat ++ z) := by simp
  have hmin : ∀ i < (c ++ ['\n']).length,
      patAgrees pat (((c ++ ['\n']) ++ (pat ++ z)).drop i) = false := by
    intro i hi
    rw [List.length_append, List.length_singleton] at hi
    rcases Nat.lt_or_ge i c.length with hic | hic
    · by_cases hcase : i + pat.length ≤ c.length
      · have hle : pat.length ≤ (c.drop i).length := by
          rw [List.length_drop]
          omega
        have e1 : (((c ++ ['\n']) ++ (pat ++ z)).drop i).take pat.length =
            (c.drop i).take pat.length := by
          rw [List.append_assoc, drop_append_le (by omega) (['\n'] ++ (pat ++ z)),
            List.take_append_of_le_length hle]
        rw [patAgrees_congr_take pat e1]
        exact hnone i
      · rw [List.append_assoc, drop_append_le (le_of_lt hic) (['\n'] ++ (pat ++ z))]
        have hassoc : c.drop i ++ (['\n'] ++ (pat ++ z)) =
            c.drop i ++ ('\n' :: pat) ++ z := by simp
        rw [hassoc]
        refine straddle (drop_ne_nil hic) ?_ ?_ ?_
        · rw [List.length_drop]
          omega
        · intro j hj ch hch
          cases j with
          | zero =>
            simp only [List.getElem?_cons_zero, Option.some.injEq] at hch
            subst hch
            decide
          | succ k =>
            rw [getq_cons_succ] at hch
            exact pat_early_ne hmid k (by omega) ch hch
        · rw [List.length_cons, hplen]
          have := List.length_drop i c
          omega
    · have hieq : i = c.length := by omega
      subst hieq
      have e2 : ((c ++ ['\n']) ++ (pat ++ z)).drop c.length = '\n' :: (pat ++ z) := by
        rw [List.append_assoc, drop_append_le (Nat.le_refl _) (['\n'] ++ (pat ++ z)),
          List.drop_length]
        simp
      rw [e2, hpat]
      simp [patAgrees, patChar]
  have h := @findPat_complete pat (c ++ ['\n']) (pat ++ z)
    (patAgrees_self_append pat z) hmin
  rw [show c ++ '\n' :: pat ++ z = (c ++ ['\n']) ++ (pat ++ z) from by simp]
  rw [h, List.take_left pat z, List.drop_left pat z]

theorem takeWhile_length_le (p : Char → Bool) : ∀ l : Str, (l.takeWhile p).length ≤ l.length
  | [] => Nat.le_refl _
  | c :: t => by
    rw [List.takeWhile_cons]
    by_cases hc : p c = true
    · rw [if_pos hc]
      simpa using Nat.succ_le_succ (takeWhile_length_le p t)
    · rw [if_neg hc]
      simp

/-! ### `subst` on harmless templates -/

theorem substF_nodollar {m b a : Str} {g : List Str} :
    ∀ (fuel : Nat) {t : Str}, (∀ ch ∈ t, ch ≠ '$') → t.length ≤ fuel →
      substF m b a g fuel t = t
  | 0, t, _, _ => rfl
  | fuel + 1, [], _, _ => rfl
  | fuel + 1, c :: rest, hnd, hlen => by
    have hc : c ≠ '$' := hnd c (List.mem_cons_self _ _)
    simp only [substF]
    rw [if_neg hc, substF_nodollar fuel (fun ch hm => hnd ch (List.mem_cons_of_mem _ hm))
      (by simpa [Nat.succ_le_succ_iff] using hlen)]

theorem subst_nodollar {m b a : Str} {g : List Str} {t : Str}
    (hnd : ∀ ch ∈ t, ch ≠ '$') : subst m b a g t = t :=
  substF_nodollar t.length hnd (Nat.le_refl _)

theorem substF_prefix {m b a : Str} {g : List Str} :
    ∀ {x : Str} (fuel : Nat) (rest : Str), (∀ ch ∈ x, ch ≠ '$') →
      x.length ≤ fuel →
      substF m b a g fuel (x ++ rest) = x ++ substF m b a g (fuel - x.length) rest
  | [], fuel, rest, _, _ => by simp
  | c :: x', fuel, rest, hnd, hlen => by
    have hc : c ≠ '$' := hnd c (List.mem_cons_self _ _)
    cases fuel with
    | zero => exact absurd hlen (by simp)
    | succ f =>
      rw [List.cons_append]
      simp only [substF]
      rw [if_neg hc, substF_prefix f rest (fun ch hm => hnd ch (List.mem_cons_of_mem _ hm))
        (by simpa [Nat.succ_le_succ_iff] using hlen)]
      simp only [List.length_cons, List.cons_append, Nat.succ_sub_succ]

/-- Expanding the `$1`-templates of the backfill passes: with a single
capture group the template's `$1` is replaced by the group, everything
else (dollar-free) verbatim. -/
theorem subst_dollar1 {m b a gr x y : Str} (hx : ∀ ch ∈ x, ch ≠ '$')
    (hy : ∀ ch ∈ y, ch ≠ '$') :
    subst m b a [gr] (x ++ '$' :: '1' :: y) = x ++ gr ++ y := by
  rw [subst, substF_prefix (x ++ '$' :: '1' :: y).length ('$' :: '1' :: y) hx
    (by simp)]
  have hfuel : (x ++ '$' :: '1' :: y).length - x.length = y.length + 2 := by
    simp [List.length_append]
  rw [hfuel]
  have h1 : substF m b a [gr] (y.length + 2) ('$' :: '1' :: y) = gr ++ y := by
    show substF m b a [gr] (y.length + 1 + 1) ('$' :: '1' :: y) = gr ++ y
    simp only [substF, if_true]
    have hne1 : ('1' : Char) ≠ '$' := by decide
    have hne2 : ('1' : Char) ≠ '&' := by decide
    have hne3 : ('1' : Char) ≠ Char.ofNat 96 := by decide
    have hne4 : ('1' : Char) ≠ '\'' := by decide
    have hd : isDigitC '1' = true := by decide
    rw [if_neg hne1, if_neg hne2, if_neg hne3, if_neg hne4, if_pos hd]
    have htn : ('1' : Char).toNat - 48 = 1 := by decide
    cases y with
    | nil =>
      simp only [htn]
      rw [if_pos (by simp)]
      simp
    | cons c2 r2 =>
      simp only [htn]
      have hcond : (isDigitC c2 && decide (1 ≤ 10 * 1 + (c2.toNat - 48)) &&
          decide (10 * 1 + (c2.toNat - 48) ≤ ([gr] : List Str).length)) = false := by
        have hc3 : decide (10 * 1 + (c2.toNat - 48) ≤ ([gr] : List Str).length) = false := by
          refine decide_eq_false ?_
          simp only [List.length_singleton]
          omega
        rw [hc3, Bool.and_false]
      rw [hcond]
      simp only [Bool.false_eq_true, if_false]
      rw [if_pos (by simp)]
      have hrest : substF m b a [gr] ((c2 :: r2).length + 1) (c2 :: r2) = c2 :: r2 :=
        substF_nodollar _ hy (by simp)
      rw [hrest]
      simp
  rw [h1, List.append_assoc]

/-! ### Key-regex lemmas -/

theorem dropWhile_nil_or_stop (p : Char → Bool) (l : Str) :
    l.dropWhile p = [] ∨ ∃ ch ∈ l, p ch = false := by
  induction l with
  | nil => exact Or.inl rfl
  | cons c t ih =>
    by_cases hc : p c = true
    · rw [List.dropWhile_cons, if_pos hc]
      rcases ih with h | ⟨ch, hm, hp⟩
      · exact Or.inl h
      · exact Or.inr ⟨ch, List.mem_cons_of_mem _ hm, hp⟩
    · exact Or.inr ⟨c, List.mem_cons_self _ _, Bool.eq_false_iff.mpr hc⟩

/-- The key regex matches at the head of the canonical `key = value` text. -/
theorem khm_line (key w : Str) :
    keyHeadMatch key (key ++ ' ' :: '=' :: ' ' :: w) = true := by
  unfold keyHeadMatch
  rw [begWith_append_self, List.drop_left]
  have h1 : (' ' :: '=' :: ' ' :: w).dropWhile jsWs = '=' :: ' ' :: w := by
    rw [List.dropWhile_cons, if_pos (by decide), List.dropWhile_cons, if_neg (by decide)]
  rw [h1]
  rfl

/-- Extent of the key-regex match on the canonical line `key = fv ++ b`
when `fv` is a well-behaved formatted value and `b` is empty or starts at a
line terminator: exactly the line. -/
theorem matchLen_line {key fv b : Str} (hfv : goodVal fv = true)
    (hb : b = [] ∨ ∃ d bt, b = d :: bt ∧ lineTerm d = true) :
    keyMatchLen key (key ++ ' ' :: '=' :: ' ' :: (fv ++ b)) = key.length + 3 + fv.length := by
  unfold goodVal at hfv
  simp only [Bool.and_eq_true, Bool.not_eq_true'] at hfv
  obtain ⟨⟨hne, hall⟩, hlast⟩ := hfv
  have hex : ∃ ch ∈ fv, jsWs ch = false := by
    cases hlg : fv.getLast? with
    | none => rw [hlg] at hlast; exact absurd hlast (by simp)
    | some c =>
      rw [hlg] at hlast
      exact ⟨c, getLast?_mem_list hlg, by simpa using hlast⟩
  have hnlt : ∀ ch ∈ fv, lineTerm ch = false := by
    intro ch hm
    have hch := List.all_eq_true.mp hall ch hm
    simp only [Bool.not_eq_true', Bool.or_eq_false_iff] at hch
    exact hch.2
  have h1 : (' ' :: '=' :: ' ' :: (fv ++ b)).takeWhile jsWs = [' '] := by
    rw [List.takeWhile_cons, if_pos (by decide), List.takeWhile_cons, if_neg (by decide)]
  set wf := (fv.takeWhile jsWs).length with hwf
  have hwfle : wf ≤ fv.length := takeWhile_length_le _ _
  have h2 : (' ' :: '=' :: ' ' :: (fv ++ b)).drop (1 + 1) = ' ' :: (fv ++ b) := rfl
  have h3 : (' ' :: (fv ++ b)).takeWhile jsWs = ' ' :: fv.takeWhile jsWs := by
    rw [List.takeWhile_cons, if_pos (by decide), takeWhile_exists_stop hex]
  have h4 : (' ' :: (fv ++ b)).drop (wf + 1) = fv.drop wf ++ b := by
    rw [List.drop_succ_cons]
    exact drop_append_le hwfle b
  have h5 : (fv.drop wf ++ b).takeWhile (fun c => !lineTerm c) = fv.drop wf := by
    rw [takeWhile_all (fun ch hm => by
      simp [hnlt ch (List.drop_subset _ _ hm)]) b]
    rw [takeWhile_head_false (p := fun c => !lineTerm c) ?_, List.append_nil]
    rcases hb with rfl | ⟨d, bt, rfl, hd⟩
    · exact Or.inl rfl
    · exact Or.inr ⟨d, bt, rfl, by simp [hd]⟩
  have h1len : ((' ' :: '=' :: ' ' :: (fv ++ b)).takeWhile jsWs).length = 1 := by
    rw [h1]
    rfl
  have h3len : ((' ' :: (fv ++ b)).takeWhile jsWs).length = wf + 1 := by
    rw [h3]
    simp [hwf]
  simp only [keyMatchLen, List.drop_left, h1len, h2, h3len, h4, h5, List.length_drop]
  omega

theorem head?_append_cons {d : Char} {l' x : Str} : ((d :: l') ++ x).head? = some d := rfl

/-- The decision of the key regex at a position strictly before an
occurrence of the key is insensitive to the text after that occurrence:
the white-space scan of `key\s*=` can never cross the occurrence, because
the key's own (alphanumeric) characters stop it. -/
theorem khm_before_key {key : Str} (hsafe : ∀ ch ∈ key, safeChar ch = true)
    (hkeyne : key ≠ []) {u : Str} (hu : u ≠ []) (t1 t2 : Str) :
    keyHeadMatch key (u ++ (key ++ t1)) = keyHeadMatch key (u ++ (key ++ t2)) := by
  have hupos : 0 < u.length := List.length_pos.mpr hu
  obtain ⟨k0, ks, rfl⟩ : ∃ k0 ks, key = k0 :: ks := by
    cases key with
    | nil => exact absurd rfl hkeyne
    | cons a b => exact ⟨a, b, rfl⟩
  set key : Str := k0 :: ks with hkeydef
  have hbeg : begWith key (u ++ (key ++ t1)) = begWith key (u ++ (key ++ t2)) := by
    refine begWith_congr_take key ?_
    have e1 : ∀ t : Str, (u ++ (key ++ t)).take key.length = (u ++ key).take key.length := by
      intro t
      rw [show u ++ (key ++ t) = (u ++ key) ++ t from by simp,
        List.take_append_of_le_length (by simp)]
    rw [e1 t1, e1 t2]
  cases hbw : begWith key (u ++ (key ++ t1)) with
  | false =>
    unfold keyHeadMatch
    rw [hbw, ← hbeg, hbw]
    simp
  | true =>
    unfold keyHeadMatch
    rw [hbw, ← hbeg, hbw]
    simp only [Bool.true_and]
    rcases le_or_lt key.length u.length with hlen | hlen
    · have hdrop : ∀ t : Str, (u ++ (key ++ t)).drop key.length =
          u.drop key.length ++ (key ++ t) := fun t => drop_append_le hlen _
      rw [hdrop t1, hdrop t2]
      rcases dropWhile_nil_or_stop jsWs (u.drop key.length) with hnil | hstop
      · have hall : ∀ ch ∈ u.drop key.length, jsWs ch = true :=
          List.dropWhile_eq_nil_iff.mp hnil
        have e2 : ∀ t : Str, (u.drop key.length ++ (key ++ t)).dropWhile jsWs =
            key ++ t := by
          intro t
          rw [dropWhile_all hall, dropWhile_head_false]
          exact Or.inr ⟨k0, ks ++ t, by simp [hkeydef],
            safeChar_not_ws (hsafe k0 (List.mem_cons_self _ _))⟩
        rw [e2 t1, e2 t2, hkeydef, head?_append_cons, head?_append_cons]
      · have e3 : ∀ t : Str, (u.drop key.length ++ (key ++ t)).dropWhile jsWs =
            (u.drop key.length).dropWhile jsWs ++ (key ++ t) :=
          fun t => dropWhile_exists_stop hstop _
        rw [e3 t1, e3 t2]
        cases hdw : (u.drop key.length).dropWhile jsWs with
        | nil =>
          rcases hstop with ⟨ch, hm, hp⟩
          rw [List.dropWhile_eq_nil_iff] at hdw
          exact absurd (hdw ch hm) (by simp [hp])
        | cons d l' => rw [head?_append_cons, head?_append_cons]
    · have hdrop2 : ∀ t : Str, (u ++ (key ++ t)).drop key.length =
          key.drop (key.length - u.length) ++ t := by
        intro t
        rw [List.drop_append_eq_append_drop, List.drop_eq_nil_of_le (le_of_lt hlen),
          List.nil_append, drop_append_le (Nat.sub_le _ _) t]
      rw [hdrop2 t1, hdrop2 t2]
      have hdne : key.drop (key.length - u.length) ≠ [] :=
        drop_ne_nil (by omega)
      cases hdk : key.drop (key.length - u.length) with
      | nil => exact absurd hdk hdne
      | cons e es =>
        have hmem : e ∈ key := List.drop_subset _ _ (hdk ▸ List.mem_cons_self e es)
        have e4 : ∀ t : Str, ((e :: es) ++ t).dropWhile jsWs = (e :: es) ++ t := by
          intro t
          exact dropWhile_head_false (Or.inr ⟨e, es ++ t, by simp,
            safeChar_not_ws (hsafe e hmem)⟩)
        rw [e4 t1, e4 t2]
        rw [head?_append_cons, head?_append_cons]

/-- A document span without a key-regex match cannot acquire one at old
positions when `"\n" ++ key ++ …` is appended: the appended newline is
white space, so any scan that ran off the old end now stops at the key's
first (alphanumeric) character, which is not `=`. -/
theorem khm_extend_false {key : Str} (hsafe : ∀ ch ∈ key, safeChar ch = true)
    (hkeyne : key ≠ []) {x : Str} (w : Str) (hold : keyHeadMatch key x = false) :
    keyHeadMatch key (x ++ '\n' :: (key ++ w)) = false := by
  obtain ⟨k0, ks, rfl⟩ : ∃ k0 ks, key = k0 :: ks := by
    cases key with
    | nil => exact absurd rfl hkeyne
    | cons a b => exact ⟨a, b, rfl⟩
  set key : Str := k0 :: ks with hkeydef
  rcases le_or_lt key.length x.length with hlen | hlen
  · have hbeg : begWith key (x ++ '\n' :: (key ++ w)) = begWith key x :=
      begWith_append_left hlen _
    cases hbx : begWith key x with
    | false =>
      unfold keyHeadMatch
      rw [hbeg, hbx]
      simp
    | true =>
      unfold keyHeadMatch at hold ⊢
      rw [hbx] at hold
      rw [hbeg, hbx]
      simp only [Bool.true_and] at hold ⊢
      rw [drop_append_le hlen]
      rcases dropWhile_nil_or_stop jsWs (x.drop key.length) with hnil | hstop
      · have hall : ∀ ch ∈ x.drop key.length, jsWs ch = true :=
          List.dropWhile_eq_nil_iff.mp hnil
        rw [dropWhile_all hall, List.dropWhile_cons, if_pos (by decide),
          dropWhile_head_false (Or.inr ⟨k0, ks ++ w, by simp [hkeydef],
            safeChar_not_ws (hsafe k0 (List.mem_cons_self _ _))⟩)]
        have hk0 : k0 ≠ '=' := safeChar_ne (hsafe k0 (List.mem_cons_self _ _)) (by decide)
        rw [hkeydef, head?_append_cons]
        simpa using hk0
      · rw [dropWhile_exists_stop hstop]
        cases hdw : (x.drop key.length).dropWhile jsWs with
        | nil =>
          rcases hstop with ⟨ch, hm, hp⟩
          rw [List.dropWhile_eq_nil_iff] at hdw
          exact absurd (hdw ch hm) (by simp [hp])
        | cons d l' =>
          rw [head?_append_cons]
          rw [hdw] at hold
          simpa using hold
  · cases hbw : begWith key (x ++ '\n' :: (key ++ w)) with
    | false =>
      unfold keyHeadMatch
      rw [hbw]
      simp
    | true =>
      exfalso
      have hx := begWith_ex hbw
      have hget : (x ++ '\n' :: (key ++ w))[x.length]? = some '\n' := by
        have := getq_append_right x (y := '\n' :: (key ++ w)) 0
        simpa using this
      have hget2 : key[x.length]? = some '\n' := by
        have e5 : key[x.length]? = (key ++ ((x ++ '\n' :: (key ++ w)).drop key.length))[x.length]? :=
          (getq_append_left key x.length hlen).symm
        rw [e5, ← hx]
        exact hget
      have : ('\n' : Char) ∈ key := getq_mem hget2
      have := hsafe '\n' this
      exact absurd this (by decide)

/-! ### `findKeyIdx` soundness and completeness -/

theorem findKeyIdx_sound {key : Str} : ∀ {s : Str} {i : Nat},
    findKeyIdx key s = some i →
    keyHeadMatch key (s.drop i) = true ∧ ∀ j < i, keyHeadMatch key (s.drop j) = false := by
  intro s
  induction s with
  | nil =>
    intro i h
    simp only [findKeyIdx] at h
    split at h
    case isTrue hm =>
      obtain rfl : i = 0 := by simpa using h.symm
      exact ⟨by simpa using hm, fun j hj => absurd hj (by simp)⟩
    case isFalse => exact absurd h (by simp)
  | cons c t ih =>
    intro i h
    simp only [findKeyIdx] at h
    split at h
    case isTrue hm =>
      obtain rfl : i = 0 := by simpa using h.symm
      exact ⟨by simpa using hm, fun j hj => absurd hj (by simp)⟩
    case isFalse hm =>
      rw [Option.map_eq_some'] at h
      obtain ⟨j, hfind, rfl⟩ := h
      obtain ⟨h1, h2⟩ := ih hfind
      refine ⟨by simpa using h1, ?_⟩
      intro j' hj'
      cases j' with
      | zero => simpa using Bool.eq_false_iff.mpr hm
      | succ j'' =>
        rw [List.drop_succ_cons]
        exact h2 j'' (by omega)

theorem findKeyIdx_complete {key : Str} : ∀ {s : Str} {i : Nat}, i ≤ s.length →
    keyHeadMatch key (s.drop i) = true →
    (∀ j < i, keyHeadMatch key (s.drop j) = false) →
    findKeyIdx key s = some i := by
  intro s
  induction s with
  | nil =>
    intro i hle hm _
    obtain rfl : i = 0 := by simpa using hle
    simp only [findKeyIdx]
    rw [if_pos (by simpa using hm)]
  | cons c t ih =>
    intro i hle hm hmin
    cases i with
    | zero =>
      simp only [findKeyIdx]
      rw [if_pos (by simpa using hm)]
    | succ j =>
      have h0 : keyHeadMatch key (c :: t) = false := by simpa using hmin 0 (by omega)
      simp only [findKeyIdx]
      rw [if_neg (by simp [h0])]
      rw [ih (by simpa using hle) (by simpa using hm)
        (fun j' hj' => by simpa using hmin (j' + 1) (by omega))]
      rfl

theorem findKeyIdx_none {key : Str} (hkeyne : key ≠ []) : ∀ {s : Str},
    findKeyIdx key s = none → ∀ j, keyHeadMatch key (s.drop j) = false := by
  have hnil : keyHeadMatch key [] = false := by
    unfold keyHeadMatch
    cases key with
    | nil => exact absurd rfl hkeyne
    | cons a b => rfl
  intro s
  induction s with
  | nil =>
    intro _ j
    simpa using hnil
  | cons c t ih =>
    intro h j
    simp only [findKeyIdx] at h
    split at h
    case isTrue => exact absurd h (by simp)
    case isFalse hm =>
      cases j with
      | zero => simpa using Bool.eq_false_iff.mpr hm
      | succ j' =>
        rw [List.drop_succ_cons]
        exact ih (by simpa using h) j'

/-! ### Further helpers for the update case analysis -/

theorem khm_newline {key : Str} (hsafe : ∀ ch ∈ key, safeChar ch = true)
    (hkeyne : key ≠ []) (z : Str) : keyHeadMatch key ('\n' :: z) = false := by
  cases key with
  | nil => exact absurd rfl hkeyne
  | cons k0 ks =>
    have hk0 : k0 ≠ '\n' := safeChar_ne (hsafe k0 (List.mem_cons_self _ _)) (by decide)
    unfold keyHeadMatch
    simp [begWith, hk0]

/-- Whatever the input, the text after a key-regex match extent is empty or
starts at a line terminator (the `.*` part is maximal). -/
theorem drop_keyMatchLen (key s : Str) :
    s.drop (keyMatchLen key s) = [] ∨
      ∃ d bt, s.drop (keyMatchLen key s) = d :: bt ∧ lineTerm d = true := by
  set s1 := s.drop key.length with hs1
  set w := (s1.takeWhile jsWs).length with hw
  set s2 := s1.drop (w + 1) with hs2
  set w2 := (s2.takeWhile jsWs).length with hw2
  set s3 := s2.drop w2 with hs3
  have hkml : keyMatchLen key s =
      key.length + w + 1 + w2 + (s3.takeWhile (fun c => !lineTerm c)).length := by
    simp only [keyMatchLen, ← hs1, ← hw, ← hs2, ← hw2, ← hs3]
  have e1 : s.drop (keyMatchLen key s) = s3.dropWhile (fun c => !lineTerm c) := by
    have h1 : s3.dropWhile (fun c => !lineTerm c) =
        s3.drop ((s3.takeWhile (fun c => !lineTerm c)).length) :=
      (drop_takeWhile_length _).symm
    rw [hkml, h1, hs3, hs2, hs1]
    rw [List.drop_drop, List.drop_drop, List.drop_drop]
    congr 1
    omega
  rw [e1]
  cases hcase : s3.dropWhile (fun c => !lineTerm c) with
  | nil => exact Or.inl rfl
  | cons d bt =>
    refine Or.inr ⟨d, bt, rfl, ?_⟩
    have hdp := dropWhile_head_prop hcase
    simpa using hdp

theorem containsSubstr_of_parts : ∀ {x : Str} (pat y : Str),
    containsSubstr (x ++ pat ++ y) pat = true
  | [], pat, y => by
    cases hp : pat ++ y with
    | nil =>
      obtain ⟨rfl, rfl⟩ := List.append_eq_nil.mp hp
      simp [containsSubstr, begWith]
    | cons c t =>
      rw [List.nil_append, hp]
      simp only [containsSubstr, Bool.or_eq_true]
      exact Or.inl (hp ▸ begWith_append_self pat y)
  | c :: x, pat, y => by
    simp only [List.cons_append, containsSubstr, Bool.or_eq_true]
    exact Or.inr (containsSubstr_of_parts pat y)

/-- Trimming keeps any interior occurrence whose first and last characters
are not white space. -/
theorem jsTrim_contains {kv x y : Str} {k0 kl : Char} {kt : Str}
    (hh : kv = k0 :: kt) (hh0 : jsWs k0 = false)
    (hl : kv.getLast? = some kl) (hl0 : jsWs kl = false) :
    containsSubstr (jsTrim (x ++ kv ++ y)) kv = true := by
  have step1 : ∃ x', (x ++ kv ++ y).dropWhile jsWs = x' ++ kv ++ y := by
    rcases dropWhile_nil_or_stop jsWs x with hnil | hstop
    · refine ⟨[], ?_⟩
      have hall : ∀ ch ∈ x, jsWs ch = true := List.dropWhile_eq_nil_iff.mp hnil
      rw [List.append_assoc, dropWhile_all hall,
        dropWhile_head_false (Or.inr ⟨k0, kt ++ y, by simp [hh], hh0⟩)]
      simp
    · exact ⟨x.dropWhile jsWs, by
        rw [List.append_assoc, dropWhile_exists_stop hstop, ← List.append_assoc]⟩
  obtain ⟨x', hx'⟩ := step1
  unfold jsTrim
  rw [hx']
  have step2 : ∃ y', ((x' ++ kv ++ y).reverse.dropWhile jsWs).reverse = x' ++ kv ++ y' := by
    have hrev : (x' ++ kv ++ y).reverse = y.reverse ++ (kv.reverse ++ x'.reverse) := by
      simp
    rw [hrev]
    have hkvrev : ∃ krest, kv.reverse = kl :: krest := by
      cases hkr : kv.reverse with
      | nil =>
        rw [hh] at hkr
        simp at hkr
      | cons a b =>
        refine ⟨b, ?_⟩
        have : kv.reverse.head? = some a := by rw [hkr]; rfl
        rw [List.head?_reverse] at this
        rw [hl] at this
        obtain rfl : a = kl := by simpa using this.symm
        rfl
    obtain ⟨krest, hkr⟩ := hkvrev
    rcases dropWhile_nil_or_stop jsWs y.reverse with hnil | hstop
    · have hall : ∀ ch ∈ y.reverse, jsWs ch = true := List.dropWhile_eq_nil_iff.mp hnil
      rw [dropWhile_all hall, dropWhile_head_false (Or.inr ⟨kl, krest ++ x'.reverse,
        by simp [hkr], hl0⟩)]
      refine ⟨[], ?_⟩
      simp
    · rw [dropWhile_exists_stop hstop]
      refine ⟨((y.reverse.dropWhile jsWs).reverse : Str), ?_⟩
      simp
  obtain ⟨y', hy'⟩ := step2
  rw [hy']
  exact containsSubstr_of_parts kv y'

theorem takeWhile_subset {p : Char → Bool} : ∀ {l : Str} {ch : Char},
    ch ∈ l.takeWhile p → ch ∈ l
  | [], _, h => by simp [List.takeWhile] at h
  | c :: t, ch, h => by
    rw [List.takeWhile_cons] at h
    by_cases hc : p c = true
    · rw [if_pos hc] at h
      rcases List.mem_cons.mp h with rfl | hm
      · exact List.mem_cons_self _ _
      · exact List.mem_cons_of_mem _ (takeWhile_subset hm)
    · rw [if_neg hc] at h
      exact absurd h (List.not_mem_nil _)

/-- `kvLine key fv` is the text `key = fv` that `updateTomlValue` writes. -/
def kvLine (key fv : Str) : Str := key ++ ' ' :: '=' :: ' ' :: fv

theorem kvLine_append (key fv b : Str) :
    kvLine key fv ++ b = key ++ ' ' :: '=' :: ' ' :: (fv ++ b) := by
  simp [kvLine]

theorem kvLine_length (key fv : Str) : (kvLine key fv).length = key.length + 3 + fv.length := by
  simp [kvLine]
  omega

/-- A section span of the canonical rewritten form is left unchanged by a
second `setInFoundSection` with the same key and value: the section is
re-found at the same place, the leftmost key match is the previously written
line, and the replacement reproduces it verbatim. -/
theorem sifs_stable {sn key fv pre' span' rest' b : Str} {j : Nat}
    (hsn_nd : ∀ ch ∈ sn, ch ≠ '$')
    (hspan_nd : ∀ ch ∈ span', ch ≠ '$')
    (hspan_nb : ∀ ch ∈ span', ch ≠ '[')
    (hrest : rest' = [] ∨ ∃ rt, rest' = '[' :: rt)
    (hfind : findPat ('[' :: sn ++ [']']) (pre' ++ ('[' :: sn ++ [']']) ++ (span' ++ rest')) =
      some (pre', '[' :: sn ++ [']'], span' ++ rest'))
    (hkidx : findKeyIdx key span' = some j)
    (hdecomp : span'.drop j = key ++ ' ' :: '=' :: ' ' :: (fv ++ b))
    (hfvgood : goodVal fv = true)
    (hb : b = [] ∨ ∃ d bt, b = d :: bt ∧ lineTerm d = true) :
    setInFoundSection sn key fv (pre' ++ ('[' :: sn ++ [']']) ++ (span' ++ rest')) =
      some (pre' ++ ('[' :: sn ++ [']']) ++ (span' ++ rest')) := by
  have h_tw : (span' ++ rest').takeWhile (· ≠ '[') = span' := by
    rw [takeWhile_all (fun ch hm => by simp [hspan_nb ch hm]) rest',
      takeWhile_head_false ?_, List.append_nil]
    rcases hrest with rfl | ⟨rt, rfl⟩
    · exact Or.inl rfl
    · exact Or.inr ⟨'[', rt, rfl, by simp⟩
  have h_dw : (span' ++ rest').dropWhile (· ≠ '[') = rest' := by
    rw [dropWhile_all (fun ch hm => by simp [hspan_nb ch hm]) rest',
      dropWhile_head_false ?_]
    rcases hrest with rfl | ⟨rt, rfl⟩
    · exact Or.inl rfl
    · exact Or.inr ⟨'[', rt, rfl, by simp⟩
  have h_kt : keyTest key span' = true := by
    unfold keyTest
    rw [hkidx]
    rfl
  have h_len : keyMatchLen key (span'.drop j) = key.length + 3 + fv.length := by
    rw [hdecomp]
    exact matchLen_line hfvgood hb
  have h_repl_nd : ∀ ch ∈ key ++ ' ' :: '=' :: ' ' :: fv, ch ≠ '$' := by
    intro ch hm
    refine hspan_nd ch (List.drop_subset j span' ?_)
    rw [hdecomp]
    simp only [List.mem_append, List.mem_cons] at hm ⊢
    rcases hm with hk | rfl | rfl | rfl | hfv
    · exact Or.inl hk
    · exact Or.inr (Or.inl rfl)
    · exact Or.inr (Or.inr (Or.inl rfl))
    · exact Or.inr (Or.inr (Or.inr (Or.inl rfl)))
    · exact Or.inr (Or.inr (Or.inr (Or.inr (by simp [hfv]))))
  have h_drop : (span'.drop j).drop (keyMatchLen key (span'.drop j)) = b := by
    rw [h_len, hdecomp, ← kvLine_append, ← kvLine_length]
    exact List.drop_left _ _
  have h_rkf : replaceKeyFirst key (key ++ ' ' :: '=' :: ' ' :: fv) span' = span' := by
    unfold replaceKeyFirst
    rw [hkidx]
    simp only
    rw [subst_nodollar h_repl_nd, h_drop]
    conv_rhs => rw [← List.take_append_drop j span']
    rw [hdecomp, ← kvLine_append]
    simp [kvLine]
  have h_templ_nd : ∀ ch ∈ '[' :: sn ++ ']' :: span', ch ≠ '$' := by
    intro ch hm
    simp only [List.mem_cons, List.mem_append] at hm
    rcases hm with (rfl | hsn') | (rfl | hsp)
    · decide
    · exact hsn_nd ch hsn'
    · decide
    · exact hspan_nd ch hsp
  simp only [setInFoundSection, hfind, h_tw, h_dw, h_kt, if_true, h_rkf]
  rw [subst_nodollar h_templ_nd]
  congr 1
  simp

/-- A section-name segment list as interpolated by the source: alphanumeric,
underscore, or the separating dot. -/
def secNameOk (sn : Str) : Prop := ∀ ch ∈ sn, safeChar ch = true ∨ ch = '.'

theorem secNameOk_ne {sn : Str} (h : secNameOk sn) {x : Char} (hx1 : safeChar x = false)
    (hx2 : x ≠ '.') : ∀ ch ∈ sn, ch ≠ x := by
  intro ch hm
  rcases h ch hm with hs | rfl
  · exact safeChar_ne hs hx1
  · exact fun hc => hx2 hc.symm

/-- First application, section found and key present: the leftmost key match
inside the span is replaced by the canonical line, and the result is stable
under a second application. -/
theorem sifs_first_key {sn key fv c pre hdr tail : Str} {i : Nat}
    (hsn : secNameOk sn)
    (hsafe : ∀ ch ∈ key, safeChar ch = true) (hkeyne : key ≠ [])
    (hfv : goodVal fv = true)
    (hndc : ∀ ch ∈ c, ch ≠ '$')
    (hfind : findPat ('[' :: sn ++ [']']) c = some (pre, hdr, tail))
    (hkey : findKeyIdx key (tail.takeWhile (· ≠ '[')) = some i) :
    ∃ x y,
      (∀ ch ∈ x ++ kvLine key fv ++ y, ch ≠ '[') ∧
      setInFoundSection sn key fv c =
        some (pre ++ ('[' :: sn ++ [']']) ++
          ((x ++ kvLine key fv ++ y) ++ tail.dropWhile (· ≠ '['))) ∧
      setInFoundSection sn key fv
          (pre ++ ('[' :: sn ++ [']']) ++
            ((x ++ kvLine key fv ++ y) ++ tail.dropWhile (· ≠ '['))) =
        some (pre ++ ('[' :: sn ++ [']']) ++
          ((x ++ kvLine key fv ++ y) ++ tail.dropWhile (· ≠ '['))) ∧
      findPat ('[' :: sn ++ [']'])
          (pre ++ ('[' :: sn ++ [']']) ++
            ((x ++ kvLine key fv ++ y) ++ tail.dropWhile (· ≠ '['))) =
        some (pre, '[' :: sn ++ [']'],
          (x ++ kvLine key fv ++ y) ++ tail.dropWhile (· ≠ '[')) := by
  have hfv_facts := hfv
  unfold goodVal at hfv_facts
  simp only [Bool.and_eq_true, Bool.not_eq_true'] at hfv_facts
  obtain ⟨⟨hfvne, hfvall⟩, _⟩ := hfv_facts
  have hfv_nb : ∀ ch ∈ fv, ch ≠ '[' := by
    intro ch hm
    have hch := List.all_eq_true.mp hfvall ch hm
    simp only [Bool.not_eq_true', Bool.or_eq_false_iff, decide_eq_false_iff_not] at hch
    exact hch.1.1
  have hfv_nd : ∀ ch ∈ fv, ch ≠ '$' := by
    intro ch hm
    have hch := List.all_eq_true.mp hfvall ch hm
    simp only [Bool.not_eq_true', Bool.or_eq_false_iff, decide_eq_false_iff_not] at hch
    exact hch.1.2
  have hmid : ∀ ch ∈ sn, ch ≠ ']' := secNameOk_ne hsn (by decide) (by decide)
  have hsn_nd : ∀ ch ∈ sn, ch ≠ '$' := secNameOk_ne hsn (by decide) (by decide)
  obtain ⟨hceq, _, _, hmin⟩ := findPat_sound hfind
  set span := tail.takeWhile (· ≠ '[') with hspan_def
  set rest := tail.dropWhile (· ≠ '[') with hrest_def
  set len := keyMatchLen key (span.drop i) with hlen_def
  set b := span.drop (i + len) with hb_def
  have hspan_nb : ∀ ch ∈ span, ch ≠ '[' := by
    intro ch hm
    have := takeWhile_mem_true (hspan_def ▸ hm)
    simpa using this
  have hspan_nd : ∀ ch ∈ span, ch ≠ '$' := by
    intro ch hm
    refine hndc ch ?_
    rw [hceq]
    simp only [List.mem_append]
    exact Or.inr (takeWhile_subset (hspan_def ▸ hm))
  have hrest_shape : rest = [] ∨ ∃ rt, rest = '[' :: rt := by
    rcases hdw : tail.dropWhile (· ≠ '[') with _ | ⟨d, rt⟩
    · exact Or.inl (by rw [hrest_def, hdw])
    · have hd := dropWhile_head_prop hdw
      simp only [decide_eq_false_iff_not, Decidable.not_not] at hd
      exact Or.inr ⟨rt, by rw [hrest_def, hdw, hd]⟩
  obtain ⟨hkhm, hkmin⟩ := findKeyIdx_sound hkey
  have hbw : begWith key (span.drop i) = true := by
    unfold keyHeadMatch at hkhm
    rw [Bool.and_eq_true] at hkhm
    exact hkhm.1
  have hi_lt : i < span.length := by
    by_contra hle
    rw [List.drop_eq_nil_of_le (by omega)] at hbw
    cases key with
    | nil => exact hkeyne rfl
    | cons k0 ks => simp [begWith] at hbw
  have htake_len : (span.take i).length = i := by
    rw [List.length_take]
    omega
  have ht1 : span.drop i = key ++ (span.drop i).drop key.length := begWith_ex hbw
  have hb_shape : b = [] ∨ ∃ d bt, b = d :: bt ∧ lineTerm d = true := by
    rw [hb_def, hlen_def, ← List.drop_drop]
    exact drop_keyMatchLen key (span.drop i)
  have h_repl_nd : ∀ ch ∈ key ++ ' ' :: '=' :: ' ' :: fv, ch ≠ '$' := by
    intro ch hm
    simp only [List.mem_append, List.mem_cons] at hm
    rcases hm with hk | rfl | rfl | rfl | hfv'
    · exact safeChar_ne (hsafe ch hk) (by decide)
    · decide
    · decide
    · decide
    · exact hfv_nd ch hfv'
  have h_kt : keyTest key span = true := by
    unfold keyTest
    rw [hkey]
    rfl
  have h_rkf : replaceKeyFirst key (key ++ ' ' :: '=' :: ' ' :: fv) span =
      span.take i ++ kvLine key fv ++ b := by
    unfold replaceKeyFirst
    rw [hkey]
    simp only
    have hdb : (span.drop i).drop (keyMatchLen key (span.drop i)) = b := by
      rw [hb_def, hlen_def]
      exact List.drop_drop _ _ _
    rw [subst_nodollar h_repl_nd, hdb]
    simp [kvLine]
  set newSpan := span.take i ++ kvLine key fv ++ b with hns_def
  have hns_nd : ∀ ch ∈ newSpan, ch ≠ '$' := by
    intro ch hm
    rw [hns_def] at hm
    simp only [List.mem_append] at hm
    rcases hm with (htk | hkv) | hbm
    · exact hspan_nd ch (List.take_subset _ _ htk)
    · exact h_repl_nd ch (by simpa [kvLine] using hkv)
    · exact hspan_nd ch (List.drop_subset _ _ (hb_def ▸ hbm))
  have hns_nb : ∀ ch ∈ newSpan, ch ≠ '[' := by
    intro ch hm
    rw [hns_def] at hm
    simp only [List.mem_append] at hm
    rcases hm with (htk | hkv) | hbm
    · exact hspan_nb ch (List.take_subset _ _ htk)
    · simp only [kvLine, List.mem_append, List.mem_cons] at hkv
      rcases hkv with hk | rfl | rfl | rfl | hfv'
      · exact safeChar_ne (hsafe ch hk) (by decide)
      · decide
      · decide
      · decide
      · exact hfv_nb ch hfv'
    · exact hspan_nb ch (List.drop_subset _ _ (hb_def ▸ hbm))
  have h_templ_nd : ∀ ch ∈ '[' :: sn ++ ']' :: newSpan, ch ≠ '$' := by
    intro ch hm
    simp only [List.mem_cons, List.mem_append] at hm
    rcases hm with (rfl | hsn') | (rfl | hsp)
    · decide
    · exact hsn_nd ch hsn'
    · decide
    · exact hns_nd ch hsp
  have h_first : setInFoundSection sn key fv c =
      some (pre ++ ('[' :: sn ++ [']']) ++ (newSpan ++ rest)) := by
    simp only [setInFoundSection, hfind, ← hspan_def, ← hrest_def, h_kt, if_true, h_rkf,
      ← hns_def]
    rw [subst_nodollar h_templ_nd]
    congr 1
    simp
  have h_find_N : findPat ('[' :: sn ++ [']'])
      (pre ++ ('[' :: sn ++ [']']) ++ (newSpan ++ rest)) =
      some (pre, '[' :: sn ++ [']'], newSpan ++ rest) := by
    refine findPre hmid (u := hdr ++ tail) ?_
    intro i' hi'
    have h := hmin i' hi'
    rw [hceq, show pre ++ hdr ++ tail = pre ++ (hdr ++ tail) from by simp] at h
    exact h
  have h_drop_ns : newSpan.drop i = key ++ ' ' :: '=' :: ' ' :: (fv ++ b) := by
    have e : (span.take i).drop i = [] := List.drop_eq_nil_of_le (by rw [htake_len])
    rw [hns_def, List.append_assoc, List.drop_append_eq_append_drop, e, htake_len,
      Nat.sub_self, List.nil_append, List.drop_zero, kvLine_append]
  have h_kidx_ns : findKeyIdx key newSpan = some i := by
    refine findKeyIdx_complete ?_ ?_ ?_
    · rw [hns_def]
      simp only [List.length_append, htake_len]
      omega
    · rw [h_drop_ns]
      exact khm_line key (fv ++ b)
    · intro j hj
      have hns_dj : newSpan.drop j = (span.take i).drop j ++ (key ++ (' ' :: '=' :: ' ' :: (fv ++ b))) := by
        rw [hns_def, List.append_assoc, drop_append_le (by omega), kvLine_append]
      have hsp_dj : span.drop j = (span.take i).drop j ++ (key ++ (span.drop i).drop key.length) := by
        conv_lhs => rw [← List.take_append_drop i span]
        rw [drop_append_le (by omega), ← ht1]
      have hu_ne : (span.take i).drop j ≠ [] := drop_ne_nil (by omega)
      rw [hns_dj, khm_before_key hsafe hkeyne hu_ne _ ((span.drop i).drop key.length),
        ← hsp_dj]
      exact hkmin j hj
  have h_second : setInFoundSection sn key fv
      (pre ++ ('[' :: sn ++ [']']) ++ (newSpan ++ rest)) =
      some (pre ++ ('[' :: sn ++ [']']) ++ (newSpan ++ rest)) :=
    sifs_stable hsn_nd hns_nd hns_nb hrest_shape h_find_N h_kidx_ns h_drop_ns hfv hb_shape
  exact ⟨span.take i, b, fun ch hm => hns_nb ch (by rw [hns_def]; exact hm),
    by simpa [hns_def] using h_first, by simpa [hns_def] using h_second,
    by simpa [hns_def] using h_find_N⟩

/-- First application, section found and key absent: the canonical line is
appended to the span, and the result is stable under a second application. -/
theorem sifs_first_nokey {sn key fv c pre hdr tail : Str}
    (hsn : secNameOk sn)
    (hsafe : ∀ ch ∈ key, safeChar ch = true) (hkeyne : key ≠ [])
    (hfv : goodVal fv = true)
    (hndc : ∀ ch ∈ c, ch ≠ '$')
    (hfind : findPat ('[' :: sn ++ [']']) c = some (pre, hdr, tail))
    (hkeyn : findKeyIdx key (tail.takeWhile (· ≠ '[')) = none) :
    ∃ x y,
      (∀ ch ∈ x ++ kvLine key fv ++ y, ch ≠ '[') ∧
      setInFoundSection sn key fv c =
        some (pre ++ ('[' :: sn ++ [']']) ++
          ((x ++ kvLine key fv ++ y) ++ tail.dropWhile (· ≠ '['))) ∧
      setInFoundSection sn key fv
          (pre ++ ('[' :: sn ++ [']']) ++
            ((x ++ kvLine key fv ++ y) ++ tail.dropWhile (· ≠ '['))) =
        some (pre ++ ('[' :: sn ++ [']']) ++
          ((x ++ kvLine key fv ++ y) ++ tail.dropWhile (· ≠ '['))) ∧
      findPat ('[' :: sn ++ [']'])
          (pre ++ ('[' :: sn ++ [']']) ++
            ((x ++ kvLine key fv ++ y) ++ tail.dropWhile (· ≠ '['))) =
        some (pre, '[' :: sn ++ [']'],
          (x ++ kvLine key fv ++ y) ++ tail.dropWhile (· ≠ '[')) := by
  have hfv_facts := hfv
  unfold goodVal at hfv_facts
  simp only [Bool.and_eq_true, Bool.not_eq_true'] at hfv_facts
  obtain ⟨⟨hfvne, hfvall⟩, _⟩ := hfv_facts
  have hfv_nb : ∀ ch ∈ fv, ch ≠ '[' := by
    intro ch hm
    have hch := List.all_eq_true.mp hfvall ch hm
    simp only [Bool.not_eq_true', Bool.or_eq_false_iff, decide_eq_false_iff_not] at hch
    exact hch.1.1
  have hfv_nd : ∀ ch ∈ fv, ch ≠ '$' := by
    intro ch hm
    have hch := List.all_eq_true.mp hfvall ch hm
    simp only [Bool.not_eq_true', Bool.or_eq_false_iff, decide_eq_false_iff_not] at hch
    exact hch.1.2
  have hmid : ∀ ch ∈ sn, ch ≠ ']' := secNameOk_ne hsn (by decide) (by decide)
  have hsn_nd : ∀ ch ∈ sn, ch ≠ '$' := secNameOk_ne hsn (by decide) (by decide)
  obtain ⟨hceq, _, _, hmin⟩ := findPat_sound hfind
  set span := tail.takeWhile (· ≠ '[') with hspan_def
  set rest := tail.dropWhile (· ≠ '[') with hrest_def
  have hspan_nb : ∀ ch ∈ span, ch ≠ '[' := by
    intro ch hm
    have := takeWhile_mem_true (hspan_def ▸ hm)
    simpa using this
  have hspan_nd : ∀ ch ∈ span, ch ≠ '$' := by
    intro ch hm
    refine hndc ch ?_
    rw [hceq]
    simp only [List.mem_append]
    exact Or.inr (takeWhile_subset (hspan_def ▸ hm))
  have hrest_shape : rest = [] ∨ ∃ rt, rest = '[' :: rt := by
    rcases hdw : tail.dropWhile (· ≠ '[') with _ | ⟨d, rt⟩
    · exact Or.inl (by rw [hrest_def, hdw])
    · have hd := dropWhile_head_prop hdw
      simp only [decide_eq_false_iff_not, Decidable.not_not] at hd
      exact Or.inr ⟨rt, by rw [hrest_def, hdw, hd]⟩
  have h_repl_nd : ∀ ch ∈ key ++ ' ' :: '=' :: ' ' :: fv, ch ≠ '$' := by
    intro ch hm
    simp only [List.mem_append, List.mem_cons] at hm
    rcases hm with hk | rfl | rfl | rfl | hfv'
    · exact safeChar_ne (hsafe ch hk) (by decide)
    · decide
    · decide
    · decide
    · exact hfv_nd ch hfv'
  have h_kt : keyTest key span = false := by
    unfold keyTest
    rw [hkeyn]
    rfl
  set newSpan := span ++ '\n' :: (key ++ ' ' :: '=' :: ' ' :: fv) with hns_def
  have hns_nd : ∀ ch ∈ newSpan, ch ≠ '$' := by
    intro ch hm
    rw [hns_def] at hm
    simp only [List.mem_append, List.mem_cons] at hm
    rcases hm with hsp | rfl | hkv
    · exact hspan_nd ch hsp
    · decide
    · exact h_repl_nd ch (by simpa using hkv)
  have hns_nb : ∀ ch ∈ newSpan, ch ≠ '[' := by
    intro ch hm
    rw [hns_def] at hm
    simp only [List.mem_append, List.mem_cons] at hm
    rcases hm with hsp | rfl | hkv
    · exact hspan_nb ch hsp
    · decide
    · rcases hkv with hk | rfl | rfl | rfl | hfv'
      · exact safeChar_ne (hsafe ch hk) (by decide)
      · decide
      · decide
      · decide
      · exact hfv_nb ch hfv'
  have h_templ_nd : ∀ ch ∈ '[' :: sn ++ ']' :: newSpan, ch ≠ '$' := by
    intro ch hm
    simp only [List.mem_cons, List.mem_append] at hm
    rcases hm with (rfl | hsn') | (rfl | hsp)
    · decide
    · exact hsn_nd ch hsn'
    · decide
    · exact hns_nd ch hsp
  have h_first : setInFoundSection sn key fv c =
      some (pre ++ ('[' :: sn ++ [']']) ++ (newSpan ++ rest)) := by
    simp only [setInFoundSection, hfind, ← hspan_def, ← hrest_def, h_kt, Bool.false_eq_true,
      if_false]
    rw [show (span ++ '\n' :: key ++ ' ' :: '=' :: ' ' :: fv : Str) = newSpan from by
      rw [hns_def]; simp]
    rw [subst_nodollar h_templ_nd]
    congr 1
    simp
  have h_find_N : findPat ('[' :: sn ++ [']'])
      (pre ++ ('[' :: sn ++ [']']) ++ (newSpan ++ rest)) =
      some (pre, '[' :: sn ++ [']'], newSpan ++ rest) := by
    refine findPre hmid (u := hdr ++ tail) ?_
    intro i' hi'
    have h := hmin i' hi'
    rw [hceq, show pre ++ hdr ++ tail = pre ++ (hdr ++ tail) from by simp] at h
    exact h
  have h_drop_ns : newSpan.drop (span.length + 1) = key ++ ' ' :: '=' :: ' ' :: (fv ++ []) := by
    rw [hns_def, List.drop_append_eq_append_drop, List.drop_eq_nil_of_le (by omega),
      List.nil_append, show span.length + 1 - span.length = 1 from by omega,
      List.drop_succ_cons, List.drop_zero, List.append_nil]
  have h_kidx_ns : findKeyIdx key newSpan = some (span.length + 1) := by
    refine findKeyIdx_complete ?_ ?_ ?_
    · rw [hns_def]
      simp only [List.length_append, List.length_cons]
      omega
    · rw [h_drop_ns, List.append_nil]
      exact khm_line key fv
    · intro j hj
      have hj' : j ≤ span.length := by omega
      have hns_dj : newSpan.drop j = span.drop j ++ '\n' :: (key ++ ' ' :: '=' :: ' ' :: fv) := by
        rw [hns_def, drop_append_le hj']
      rw [hns_dj]
      exact khm_extend_false hsafe hkeyne _ (findKeyIdx_none hkeyne hkeyn j)
  have h_second : setInFoundSection sn key fv
      (pre ++ ('[' :: sn ++ [']']) ++ (newSpan ++ rest)) =
      some (pre ++ ('[' :: sn ++ [']']) ++ (newSpan ++ rest)) :=
    sifs_stable hsn_nd hns_nd hns_nb hrest_shape h_find_N h_kidx_ns h_drop_ns hfv (Or.inl rfl)
  exact ⟨span ++ ['\n'], [], fun ch hm => hns_nb ch (by rw [hns_def]; simpa [kvLine] using hm),
    by simpa [hns_def, kvLine] using h_first,
    by simpa [hns_def, kvLine] using h_second, by simpa [hns_def, kvLine] using h_find_N⟩

/-- Stability of the freshly appended section block: when `[sn]` is absent
from `c`, the block appended by `updateTomlValue` is found and left unchanged
by a subsequent `setInFoundSection` with the same arguments. -/
theorem sifs_append {sn key fv c : Str}
    (hsn : secNameOk sn)
    (hsafe : ∀ ch ∈ key, safeChar ch = true) (hkeyne : key ≠ [])
    (hfv : goodVal fv = true)
    (hnone : findPat ('[' :: sn ++ [']']) c = none) :
    setInFoundSection sn key fv
        (c ++ '\n' :: '[' :: sn ++ ']' :: '\n' :: key ++ ' ' :: '=' :: ' ' :: fv ++ ['\n']) =
      some (c ++ '\n' :: '[' :: sn ++ ']' :: '\n' :: key ++ ' ' :: '=' :: ' ' :: fv ++ ['\n']) := by
  have hfv_facts := hfv
  unfold goodVal at hfv_facts
  simp only [Bool.and_eq_true, Bool.not_eq_true'] at hfv_facts
  obtain ⟨⟨hfvne, hfvall⟩, _⟩ := hfv_facts
  have hfv_nb : ∀ ch ∈ fv, ch ≠ '[' := by
    intro ch hm
    have hch := List.all_eq_true.mp hfvall ch hm
    simp only [Bool.not_eq_true', Bool.or_eq_false_iff, decide_eq_false_iff_not] at hch
    exact hch.1.1
  have hfv_nd : ∀ ch ∈ fv, ch ≠ '$' := by
    intro ch hm
    have hch := List.all_eq_true.mp hfvall ch hm
    simp only [Bool.not_eq_true', Bool.or_eq_false_iff, decide_eq_false_iff_not] at hch
    exact hch.1.2
  have hmid : ∀ ch ∈ sn, ch ≠ ']' := secNameOk_ne hsn (by decide) (by decide)
  have hsn_nd : ∀ ch ∈ sn, ch ≠ '$' := secNameOk_ne hsn (by decide) (by decide)
  set z : Str := '\n' :: (key ++ ' ' :: '=' :: ' ' :: (fv ++ ['\n'])) with hz_def
  have hz_nb : ∀ ch ∈ z, ch ≠ '[' := by
    intro ch hm
    rw [hz_def] at hm
    simp only [List.mem_cons, List.mem_append, List.mem_singleton] at hm
    rcases hm with rfl | hk | rfl | rfl | rfl | hfv' | rfl | h0
    · decide
    · exact safeChar_ne (hsafe ch hk) (by decide)
    · decide
    · decide
    · decide
    · exact hfv_nb ch hfv'
    · decide
    · simp at h0
  have hz_nd : ∀ ch ∈ z, ch ≠ '$' := by
    intro ch hm
    rw [hz_def] at hm
    simp only [List.mem_cons, List.mem_append, List.mem_singleton] at hm
    rcases hm with rfl | hk | rfl | rfl | rfl | hfv' | rfl | h0
    · decide
    · exact safeChar_ne (hsafe ch hk) (by decide)
    · decide
    · decide
    · decide
    · exact hfv_nd ch hfv'
    · decide
    · simp at h0
  have hN : (c ++ '\n' :: '[' :: sn ++ ']' :: '\n' :: key ++ ' ' :: '=' :: ' ' :: fv ++ ['\n'] : Str)
      = (c ++ ['\n']) ++ ('[' :: sn ++ [']']) ++ (z ++ []) := by
    rw [hz_def]
    simp
  have hfindN := findAppend hmid (findPat_none_sound hnone) (z := z)
  have hfindN' : findPat ('[' :: sn ++ [']'])
      ((c ++ ['\n']) ++ ('[' :: sn ++ [']']) ++ (z ++ [])) =
      some (c ++ ['\n'], '[' :: sn ++ [']'], z ++ []) := by
    rw [List.append_nil]
    rw [show ((c ++ ['\n']) ++ ('[' :: sn ++ [']']) ++ z : Str) =
      c ++ '\n' :: ('[' :: sn ++ [']']) ++ z from by simp]
    exact hfindN
  have hkidx : findKeyIdx key z = some 1 := by
    refine findKeyIdx_complete ?_ ?_ ?_
    · rw [hz_def]
      simp
    · rw [hz_def, List.drop_succ_cons, List.drop_zero]
      exact khm_line key (fv ++ ['\n'])
    · intro j hj
      obtain rfl : j = 0 := by omega
      rw [hz_def, List.drop_zero]
      exact khm_newline hsafe hkeyne _
  have hdecomp : z.drop 1 = key ++ ' ' :: '=' :: ' ' :: (fv ++ ['\n']) := by
    rw [hz_def, List.drop_succ_cons, List.drop_zero]
  have hstable := sifs_stable hsn_nd hz_nd hz_nb (Or.inl rfl) hfindN' hkidx hdecomp hfv
      (Or.inr ⟨'\n', [], rfl, by decide⟩)
  rw [hN]
  exact hstable

example : updateTomlValue (S "") (S "a.b.c.d") (S "1") = S "\n[a.b]\nc = 1\n" := by decide
example : updateTomlValue (S "[s.[s.k]]") (S "s.k") (S "v") =
    S "[s.[s.k]]\n[s]\nk = \"v\"\n" := by decide
example : updateTomlValue (S "") (S "s.k") (S "[1]") = S "\n[s]\nk = [1]\n" := by decide
example : updateTomlValue (S "\n[s]\nk = [1]\n") (S "s.k") (S "[1]") =
    S "\n[s]\nk = [1][1]\n" := by decide
example : updateTomlValue (S "[search]\nengine_url = \"x\"\n") (S "search.url") (S "y") =
    S "[search]\nengine_url = \"y\"\n" := by decide
example : checkSearchEngineSettings (S "") = searchDefaultsBlock := by decide
example : checkSearchEngineSettings (S "[search]\nengine = \"bing\"\n") =
    S "[search]\nengine = \"bing\"\nengine_url = \"https://www.bing.com\"\n" := by decide
example : checkBrowserSettings (S "[browser]\nheadless = true\n[sandbox]\ntimeout = 60\n") =
    S "[browser]\nheadless = true\nretry_count = 3\nretry_delay = 1000\n[sandbox]\ntimeout = 60\n" := by
  decide
example : getConfigSection (S "a.b") (some (S "[axb]\nk = 1")) = some (.inl (S "k = 1")) := by
  decide
example : getConfigSection (S "s") (some (S "\n[s]\nk = [1]\n")) = some (.inl (S "k =")) := by
  decide

/-- Splitting a dot-free string yields a single piece. -/
theorem splitOnDot_no_dot : ∀ {a : Str}, (∀ ch ∈ a, ch ≠ '.') → splitOnDot a = [a] := by
  intro a
  induction a with
  | nil => intro _; rfl
  | cons c t ih =>
    intro h
    have hc : c ≠ '.' := h c (List.mem_cons_self _ _)
    have ht := ih (fun ch hm => h ch (List.mem_cons_of_mem _ hm))
    simp only [splitOnDot, if_neg hc, ht]

/-- Splitting past a dot-free head piece. -/
theorem splitOnDot_append {a : Str} (t : Str) (h : ∀ ch ∈ a, ch ≠ '.') :
    splitOnDot (a ++ '.' :: t) = a :: splitOnDot t := by
  induction a with
  | nil =>
    simp [splitOnDot]
  | cons c r ih =>
    have hc : c ≠ '.' := h c (List.mem_cons_self _ _)
    have hr := ih (fun ch hm => h ch (List.mem_cons_of_mem _ hm))
    simp only [List.cons_append, splitOnDot, if_neg hc, List.append_eq, hr]

/-- `updateTomlValue` on a two-segment path, unfolded. -/
theorem utv_two_eq {p sec key : Str} (c v : Str) (h : splitOnDot p = [sec, key]) :
    updateTomlValue c p v =
      (match setInFoundSection sec key (formatValue v) c with
       | some r => r
       | none =>
         if nestedScanFound sec key c then c
         else c ++ '\n' :: '[' :: sec ++ ']' :: '\n' :: key ++ ' ' :: '=' :: ' ' ::
           formatValue v ++ ['\n']) := by
  unfold updateTomlValue
  rw [h]
  norm_num [List.getD]

/-- `updateTomlValue` on a path of three or more segments, unfolded: only the
first three segments are consulted. -/
theorem utv_three_eq {p s0 s1 s2 : Str} {more : List Str} (c v : Str)
    (h : splitOnDot p = s0 :: s1 :: s2 :: more) :
    updateTomlValue c p v =
      (match setInFoundSection (s0 ++ '.' :: s1) s2 (formatValue v) c with
       | some r => r
       | none => c ++ '\n' :: '[' :: (s0 ++ '.' :: s1) ++ ']' :: '\n' :: s2 ++
           ' ' :: '=' :: ' ' :: formatValue v ++ ['\n']) := by
  unfold updateTomlValue
  rw [h]
  have hlen : (s0 :: s1 :: s2 :: more).length > 2 := by
    simp only [List.length_cons]
    omega
  rw [if_pos hlen]
  norm_num [List.getD]

/-- `updateTomlValue` on a one-segment path (no dot) is the identity. -/
theorem utv_one_eq {p : Str} (c v : Str) (h : (splitOnDot p).length = 1) :
    updateTomlValue c p v = c := by
  unfold updateTomlValue
  rw [if_neg (by omega), if_neg (by simp [h])]

theorem safeSeg_all {s : Str} (h : safeSeg s = true) : ∀ ch ∈ s, safeChar ch = true := by
  unfold safeSeg at h
  rw [Bool.and_eq_true] at h
  exact fun ch hm => List.all_eq_true.mp h.2 ch hm

theorem safeSeg_ne_nil {s : Str} (h : safeSeg s = true) : s ≠ [] := by
  unfold safeSeg at h
  rw [Bool.and_eq_true] at h
  intro he
  subst he
  simp at h

theorem secNameOk_of_safe {s : Str} (h : safeSeg s = true) : secNameOk s :=
  fun ch hm => Or.inl (safeSeg_all h ch hm)

theorem secNameOk_join {s0 s1 : Str} (h0 : safeSeg s0 = true) (h1 : safeSeg s1 = true) :
    secNameOk (s0 ++ '.' :: s1) := by
  intro ch hm
  simp only [List.mem_append, List.mem_cons] at hm
  rcases hm with h | rfl | h
  · exact Or.inl (safeSeg_all h0 ch h)
  · exact Or.inr rfl
  · exact Or.inl (safeSeg_all h1 ch h)

theorem noDollar_all {s : Str} (h : noDollar s = true) : ∀ ch ∈ s, ch ≠ '$' := by
  unfold noDollar at h
  intro ch hm
  simpa using List.all_eq_true.mp h ch hm

theorem sifs_none_inv {sn key fv c : Str} (hs : setInFoundSection sn key fv c = none) :
    findPat ('[' :: sn ++ [']']) c = none := by
  cases hfp : findPat ('[' :: sn ++ [']']) c with
  | none => rfl
  | some t =>
    obtain ⟨a, b1, b2⟩ := t
    unfold setInFoundSection at hs
    rw [hfp] at hs
    simp at hs

/-- A successful `setInFoundSection` is a fixed point of a second application
with the same arguments. -/
theorem sifs_round {sn key fv c : Str}
    (hsn : secNameOk sn)
    (hsafe : ∀ ch ∈ key, safeChar ch = true) (hkeyne : key ≠ [])
    (hfv : goodVal fv = true)
    (hndc : ∀ ch ∈ c, ch ≠ '$')
    {r : Str} (hr : setInFoundSection sn key fv c = some r) :
    setInFoundSection sn key fv r = some r := by
  cases hfp : findPat ('[' :: sn ++ [']']) c with
  | none =>
    unfold setInFoundSection at hr
    rw [hfp] at hr
    cases hr
  | some t =>
    obtain ⟨pre, hdr, tail⟩ := t
    cases hki : findKeyIdx key (tail.takeWhile (· ≠ '[')) with
    | some i =>
      obtain ⟨x, y, _, h1, h2, _⟩ := sifs_first_key hsn hsafe hkeyne hfv hndc hfp hki
      cases Option.some.inj (hr.symm.trans h1)
      exact h2
    | none =>
      obtain ⟨x, y, _, h1, h2, _⟩ := sifs_first_nokey hsn hsafe hkeyne hfv hndc hfp hki
      cases Option.some.inj (hr.symm.trans h1)
      exact h2

/-- Idempotence of `updateTomlValue` on a two-segment path. -/
theorem utv_idem_two {c p v sec key : Str}
    (hsplit : splitOnDot p = [sec, key])
    (hsec : safeSeg sec = true) (hkey : safeSeg key = true)
    (hc : ∀ ch ∈ c, ch ≠ '$')
    (hfv : goodVal (formatValue v) = true) :
    updateTomlValue (updateTomlValue c p v) p v = updateTomlValue c p v := by
  have hsn := secNameOk_of_safe hsec
  have hsafe := safeSeg_all hkey
  have hkeyne := safeSeg_ne_nil hkey
  rw [utv_two_eq c v hsplit]
  cases hs : setInFoundSection sec key (formatValue v) c with
  | some r =>
    show updateTomlValue r p v = r
    rw [utv_two_eq r v hsplit, sifs_round hsn hsafe hkeyne hfv hc hs]
  | none =>
    cases hns : nestedScanFound sec key c with
    | true =>
      simp only [hns, if_true]
      rw [utv_two_eq c v hsplit, hs]
      simp [hns]
    | false =>
      simp only [hns, Bool.false_eq_true, if_false]
      rw [utv_two_eq _ v hsplit, sifs_append hsn hsafe hkeyne hfv (sifs_none_inv hs)]

/-- Idempotence of `updateTomlValue` on a path of three or more segments. -/
theorem utv_idem_three {c p v s0 s1 s2 : Str} {more : List Str}
    (hsplit : splitOnDot p = s0 :: s1 :: s2 :: more)
    (hs0 : safeSeg s0 = true) (hs1 : safeSeg s1 = true) (hs2 : safeSeg s2 = true)
    (hc : ∀ ch ∈ c, ch ≠ '$')
    (hfv : goodVal (formatValue v) = true) :
    updateTomlValue (updateTomlValue c p v) p v = updateTomlValue c p v := by
  have hsn := secNameOk_join hs0 hs1
  have hsafe := safeSeg_all hs2
  have hkeyne := safeSeg_ne_nil hs2
  rw [utv_three_eq c v hsplit]
  cases hs : setInFoundSection (s0 ++ '.' :: s1) s2 (formatValue v) c with
  | some r =>
    show updateTomlValue r p v = r
    rw [utv_three_eq r v hsplit, sifs_round hsn hsafe hkeyne hfv hc hs]
  | none =>
    rw [utv_three_eq _ v hsplit, sifs_append hsn hsafe hkeyne hfv (sifs_none_inv hs)]

/-- On empty content, `updateTomlValue` on a two-segment path appends a fresh
section block. -/
theorem utv_empty_append {p sec key : Str} (v : Str) (hsplit : splitOnDot p = [sec, key]) :
    updateTomlValue (S "") p v =
      '\n' :: '[' :: sec ++ ']' :: '\n' :: key ++ ' ' :: '=' :: ' ' :: formatValue v ++ ['\n'] := by
  rw [utv_two_eq _ v hsplit]
  rfl

/-- Overwriting the single key of a freshly appended block with a new value:
the block is re-found and the key line replaced in place. -/
theorem sifs_replace_block {sn key fv1 fv2 : Str}
    (hsn : secNameOk sn)
    (hsafe : ∀ ch ∈ key, safeChar ch = true) (hkeyne : key ≠ [])
    (hg1 : goodVal fv1 = true) (hg2 : goodVal fv2 = true) :
    setInFoundSection sn key fv2
        ('\n' :: '[' :: sn ++ ']' :: '\n' :: key ++ ' ' :: '=' :: ' ' :: fv1 ++ ['\n']) =
      some ('\n' :: '[' :: sn ++ ']' :: '\n' :: key ++ ' ' :: '=' :: ' ' :: fv2 ++ ['\n']) := by
  have hfv1_facts := hg1
  unfold goodVal at hfv1_facts
  simp only [Bool.and_eq_true, Bool.not_eq_true'] at hfv1_facts
  obtain ⟨⟨hfv1ne, hfv1all⟩, _⟩ := hfv1_facts
  have hfv1_nb : ∀ ch ∈ fv1, ch ≠ '[' := by
    intro ch hm
    have hch := List.all_eq_true.mp hfv1all ch hm
    simp only [Bool.not_eq_true', Bool.or_eq_false_iff, decide_eq_false_iff_not] at hch
    exact hch.1.1
  have hfv2_facts := hg2
  unfold goodVal at hfv2_facts
  simp only [Bool.and_eq_true, Bool.not_eq_true'] at hfv2_facts
  obtain ⟨⟨hfv2ne, hfv2all⟩, _⟩ := hfv2_facts
  have hfv2_nd : ∀ ch ∈ fv2, ch ≠ '$' := by
    intro ch hm
    have hch := List.all_eq_true.mp hfv2all ch hm
    simp only [Bool.not_eq_true', Bool.or_eq_false_iff, decide_eq_false_iff_not] at hch
    exact hch.1.2
  have hmid : ∀ ch ∈ sn, ch ≠ ']' := secNameOk_ne hsn (by decide) (by decide)
  have hsn_nd : ∀ ch ∈ sn, ch ≠ '$' := secNameOk_ne hsn (by decide) (by decide)
  set z1 : Str := '\n' :: (key ++ ' ' :: '=' :: ' ' :: (fv1 ++ ['\n'])) with hz1_def
  have hz1_nb : ∀ ch ∈ z1, ch ≠ '[' := by
    intro ch hm
    rw [hz1_def] at hm
    simp only [List.mem_cons, List.mem_append, List.mem_singleton] at hm
    rcases hm with rfl | hk | rfl | rfl | rfl | hfv' | rfl | h0
    · decide
    · exact safeChar_ne (hsafe ch hk) (by decide)
    · decide
    · decide
    · decide
    · exact hfv1_nb ch hfv'
    · decide
    · simp at h0
  have hfind : findPat ('[' :: sn ++ [']'])
      ('\n' :: (('[' :: sn ++ [']']) ++ z1)) = some (['\n'], '[' :: sn ++ [']'], z1) := by
    have h := @findAppend sn [] z1 hmid ?_
    · simpa using h
    · intro i
      simp only [List.drop_nil]
      rfl
  have hkidx : findKeyIdx key z1 = some 1 := by
    refine findKeyIdx_complete ?_ ?_ ?_
    · rw [hz1_def]
      simp
    · rw [hz1_def, List.drop_succ_cons, List.drop_zero]
      exact khm_line key (fv1 ++ ['\n'])
    · intro j hj
      obtain rfl : j = 0 := by omega
      rw [hz1_def, List.drop_zero]
      exact khm_newline hsafe hkeyne _
  have h_tw : z1.takeWhile (· ≠ '[') = z1 := by
    have h := takeWhile_all (p := fun x => decide (x ≠ '['))
      (x := z1) (fun ch hm => by simp [hz1_nb ch hm]) []
    simpa using h
  have h_dw : z1.dropWhile (· ≠ '[') = [] := by
    have h := dropWhile_all (p := fun x => decide (x ≠ '['))
      (x := z1) (fun ch hm => by simp [hz1_nb ch hm]) []
    simpa using h
  have h_kt : keyTest key z1 = true := by
    unfold keyTest
    rw [hkidx]
    rfl
  have h_repl_nd : ∀ ch ∈ key ++ ' ' :: '=' :: ' ' :: fv2, ch ≠ '$' := by
    intro ch hm
    simp only [List.mem_append, List.mem_cons] at hm
    rcases hm with hk | rfl | rfl | rfl | hfv'
    · exact safeChar_ne (hsafe ch hk) (by decide)
    · decide
    · decide
    · decide
    · exact hfv2_nd ch hfv'
  have hsuf : z1.drop 1 = kvLine key fv1 ++ ['\n'] := by
    rw [hz1_def, List.drop_succ_cons, List.drop_zero, kvLine_append]
  have h_len : keyMatchLen key (z1.drop 1) = key.length + 3 + fv1.length := by
    rw [hz1_def, List.drop_succ_cons, List.drop_zero]
    exact matchLen_line hg1 (Or.inr ⟨'\n', [], rfl, by decide⟩)
  have h_rkf : replaceKeyFirst key (key ++ ' ' :: '=' :: ' ' :: fv2) z1 =
      '\n' :: (key ++ ' ' :: '=' :: ' ' :: (fv2 ++ ['\n'])) := by
    unfold replaceKeyFirst
    rw [hkidx]
    simp only
    rw [subst_nodollar h_repl_nd, h_len, hsuf, ← kvLine_length key fv1, List.drop_left]
    rw [show z1.take 1 = ['\n'] from by rw [hz1_def]; rfl]
    simp [kvLine]
  set newSpan : Str := '\n' :: (key ++ ' ' :: '=' :: ' ' :: (fv2 ++ ['\n'])) with hns_def
  have h_templ_nd : ∀ ch ∈ '[' :: sn ++ ']' :: newSpan, ch ≠ '$' := by
    intro ch hm
    simp only [hns_def, List.mem_cons, List.mem_append, List.mem_singleton] at hm
    rcases hm with (rfl | hsn') | (rfl | rfl | hk | rfl | rfl | rfl | hfv' | rfl | h0)
    · decide
    · exact hsn_nd ch hsn'
    · decide
    · decide
    · exact safeChar_ne (hsafe ch hk) (by decide)
    · decide
    · decide
    · decide
    · exact hfv2_nd ch hfv'
    · decide
    · simp at h0
  have hshape : ('\n' :: '[' :: sn ++ ']' :: '\n' :: key ++ ' ' :: '=' :: ' ' :: fv1 ++ ['\n'] : Str) =
      (('[' :: sn ++ [']']) ++ z1).cons '\n' := by
    rw [hz1_def]
    simp
  rw [hshape]
  simp only [setInFoundSection, hfind, h_tw, h_dw, h_kt, if_true, h_rkf, ← hns_def]
  rw [subst_nodollar h_templ_nd]
  rw [hns_def]
  simp

/-- Setting the same two-segment path twice on empty content keeps only the
second value. -/
theorem utv_overwrite {p sec key : Str} (v1 v2 : Str)
    (hsplit : splitOnDot p = [sec, key])
    (hsec : safeSeg sec = true) (hkey : safeSeg key = true)
    (hg1 : goodVal (formatValue v1) = true) (hg2 : goodVal (formatValue v2) = true) :
    updateTomlValue (updateTomlValue (S "") p v1) p v2 =
      '\n' :: '[' :: sec ++ ']' :: '\n' :: key ++ ' ' :: '=' :: ' ' :: formatValue v2 ++ ['\n'] := by
  rw [utv_empty_append v1 hsplit, utv_two_eq _ v2 hsplit,
    sifs_replace_block (secNameOk_of_safe hsec) (safeSeg_all hkey) (safeSeg_ne_nil hkey) hg1 hg2]

/-- Every piece produced by `splitOnDot` is dot-free. -/
theorem splitOnDot_pieces : ∀ {p x : Str}, x ∈ splitOnDot p → ∀ ch ∈ x, ch ≠ '.' := by
  intro p
  induction p with
  | nil =>
    intro x hx ch hm
    simp only [splitOnDot, List.mem_singleton] at hx
    subst hx
    simp at hm
  | cons c t ih =>
    intro x hx ch hm
    by_cases hc : c = '.'
    · subst hc
      simp only [splitOnDot, if_pos rfl] at hx
      rcases List.mem_cons.mp hx with rfl | hx'
      · simp at hm
      · exact ih hx' ch hm
    · simp only [splitOnDot, if_neg hc] at hx
      cases hsp : splitOnDot t with
      | nil =>
        rw [hsp] at hx
        simp only [List.mem_singleton] at hx
        subst hx
        obtain rfl : ch = c := by simpa using hm
        exact hc
      | cons h r =>
        rw [hsp] at hx
        rcases List.mem_cons.mp hx with rfl | hx'
        · rcases List.mem_cons.mp hm with rfl | hm'
          · exact hc
          · exact ih (by rw [hsp]; exact List.mem_cons_self _ _) ch hm'
        · exact ih (by rw [hsp]; exact List.mem_cons_of_mem _ hx') ch hm

/-- A failed `includes` means the pattern begins at no position. -/
theorem containsSubstr_none : ∀ {x pat : Str}, containsSubstr x pat = false →
    ∀ i, begWith pat (x.drop i) = false := by
  intro x
  induction x with
  | nil =>
    intro pat h i
    rw [List.drop_nil]
    simpa [containsSubstr] using h
  | cons c t ih =>
    intro pat h i
    simp only [containsSubstr, Bool.or_eq_false_iff] at h
    cases i with
    | zero =>
      rw [List.drop_zero]
      exact h.1
    | succ j =>
      rw [List.drop_succ_cons]
      exact ih h.2 j

/-- The nested-section scan collects nothing when `[sec.` begins nowhere. -/
theorem nestedCollectAux_skip {sec : Str} : ∀ (fuel : Nat) (acc : List (Str × Str)) (s : Str),
    (∀ i, begWith ('[' :: sec ++ ['.']) (s.drop i) = false) →
    nestedCollectAux sec fuel acc s = acc := by
  intro fuel
  induction fuel with
  | zero => intro acc s h; rfl
  | succ f ih =>
    intro acc s h
    have h0 := h 0
    rw [List.drop_zero] at h0
    have hh : nestedHead? sec s = none := by
      unfold nestedHead?
      rw [h0]
      rfl
    cases s with
    | nil =>
      simp only [nestedCollectAux, hh]
    | cons c t =>
      simp only [nestedCollectAux, hh]
      exact ih acc t (fun i => by
        have := h (i + 1)
        rwa [List.drop_succ_cons] at this)

theorem nestedCollect_nil {sec content : Str}
    (h : containsSubstr content ('[' :: sec ++ ['.']) = false) :
    nestedCollect sec content = [] :=
  nestedCollectAux_skip _ [] content (containsSubstr_none h)

/-- The quoted-value regex needs `=` (after optional white space) right after
the key; positions where that fails yield no match. -/
theorem qhm_none_of_no_eq {key s : Str}
    (h : ∀ s2, (s.drop key.length).dropWhile jsWs ≠ '=' :: s2) :
    quotedHeadMatch key s = none := by
  unfold quotedHeadMatch
  cases hb : begWith key s with
  | false => rfl
  | true =>
    rw [if_pos rfl]
    split
    · next s2 heq => exact absurd heq (h s2)
    · rfl

/-- Inside a run of alphanumeric/underscore characters closed by `"` and a
newline, the quoted-value regex matches nowhere. -/
theorem qhm_safe_none {key e2 : Str} (he2 : ∀ ch ∈ e2, safeChar ch = true) :
    quotedHeadMatch key (e2 ++ ['"', '\n']) = none := by
  apply qhm_none_of_no_eq
  intro s2 heq
  rcases le_or_lt key.length e2.length with hle | hlt
  · have hr2 : (e2 ++ ['"', '\n']).drop key.length = e2.drop key.length ++ ['"', '\n'] :=
      drop_append_le hle _
    rcases hde : e2.drop key.length with _ | ⟨d, dt⟩
    · rw [hr2, hde] at heq
      rw [show (List.dropWhile jsWs (([] : Str) ++ ['"', '\n']) : Str) = ['"', '\n'] from
        by decide] at heq
      simp at heq
    · have hd_safe : safeChar d = true :=
        he2 d (List.drop_subset _ _ (by rw [hde]; exact List.mem_cons_self _ _))
      rw [hr2, hde, List.cons_append, List.dropWhile_cons,
        if_neg (by simp [safeChar_not_ws hd_safe])] at heq
      have hd_eq : d = '=' := (List.cons.injEq _ _ _ _).mp heq |>.1
      rw [hd_eq] at hd_safe
      exact absurd hd_safe (by decide)
  · have hr2 : (e2 ++ ['"', '\n']).drop key.length =
        List.drop (key.length - e2.length) ['"', '\n'] := by
      rw [List.drop_append_eq_append_drop, List.drop_eq_nil_of_le (by omega), List.nil_append]
    rcases hm : key.length - e2.length with _ | (_ | n)
    · omega
    · rw [hr2, hm] at heq
      rw [show (List.dropWhile jsWs (List.drop 1 ['"', '\n']) : Str) = [] from by decide] at heq
      cases heq
    · rw [hr2, hm] at heq
      rw [show (List.drop (n + 1 + 1) ['"', '\n'] : Str) = [] from
        List.drop_eq_nil_of_le (by simp)] at heq
      cases heq

/-- One skipped position of the quoted-value scan. -/
theorem qvf_safe_skip {key : Str} : ∀ (e2 : Str), (∀ ch ∈ e2, safeChar ch = true) →
    quotedValFirst key (e2 ++ ['"', '\n']) = quotedValFirst key ['"', '\n'] := by
  intro e2
  induction e2 with
  | nil => intro _; rfl
  | cons d dt ih =>
    intro h
    have hq := @qhm_safe_none key (d :: dt) h
    rw [List.cons_append] at hq
    rw [List.cons_append]
    simp only [quotedValFirst, hq]
    exact ih (fun ch hm => h ch (List.mem_cons_of_mem _ hm))

/-- A head match stops the quoted-value scan. -/
theorem qvf_some {key s g : Str} (hne : s ≠ []) (h : quotedHeadMatch key s = some g) :
    quotedValFirst key s = some g := by
  cases s with
  | nil => exact absurd rfl hne
  | cons c t => simp only [quotedValFirst, h]

/-- The quoted-value regex reads the engine name out of the canonical
`engine = "<e>"` line. -/
theorem qhm_engine_hit {e : Str} (he : ∀ ch ∈ e, ch ≠ '"') :
    quotedHeadMatch (S "engine") (S "engine = \"" ++ (e ++ ['"', '\n'])) = some e := by
  have hred : quotedHeadMatch (S "engine") (S "engine = \"" ++ (e ++ ['"', '\n'])) =
      (let g := (e ++ ['"', '\n']).takeWhile (· ≠ '"');
       if ((e ++ ['"', '\n']).drop g.length).head? = some '"' then some g else none) := rfl
  rw [hred]
  have hg : (e ++ ['"', '\n']).takeWhile (· ≠ '"') = e := by
    rw [takeWhile_all (fun ch hm => by simp [he ch hm]) _,
      takeWhile_head_false (Or.inr ⟨'"', ['\n'], rfl, by decide⟩), List.append_nil]
  simp only [hg, List.drop_left, List.head?_cons, ite_true]

/-- Trimming keeps the canonical `key = value` line (first and last char of
the line are visible, non-white-space characters). -/
theorem kv_trim_contains {key fv : Str} (x y : Str)
    (hsafe : ∀ ch ∈ key, safeChar ch = true) (hkeyne : key ≠ [])
    (hfv : goodVal fv = true) :
    containsSubstr (jsTrim (x ++ kvLine key fv ++ y)) (kvLine key fv) = true := by
  obtain ⟨k0, kt, hkey_cons⟩ : ∃ k0 kt, key = k0 :: kt := by
    cases key with
    | nil => exact absurd rfl hkeyne
    | cons a b => exact ⟨a, b, rfl⟩
  have hk0 : jsWs k0 = false :=
    safeChar_not_ws (hsafe k0 (by rw [hkey_cons]; exact List.mem_cons_self _ _))
  have hkv_cons : kvLine key fv = k0 :: (kt ++ ' ' :: '=' :: ' ' :: fv) := by
    rw [kvLine, hkey_cons]
    simp
  have hfvl := hfv
  unfold goodVal at hfvl
  simp only [Bool.and_eq_true] at hfvl
  obtain ⟨⟨hfvne, hfvall⟩, hlast⟩ := hfvl
  obtain ⟨kl, hgl, hkl0⟩ : ∃ kl, fv.getLast? = some kl ∧ jsWs kl = false := by
    cases hgl : fv.getLast? with
    | none => rw [hgl] at hlast; simp at hlast
    | some a =>
      rw [hgl] at hlast
      simp only [Bool.not_eq_true'] at hlast
      exact ⟨a, rfl, hlast⟩
  have hkv_last : (kvLine key fv).getLast? = some kl := by
    rw [kvLine, List.getLast?_append,
      show (' ' :: '=' :: ' ' :: fv : Str) = [' ', '=', ' '] ++ fv from rfl,
      List.getLast?_append, hgl]
    rfl
  exact jsTrim_contains hkv_cons hk0 hkv_last hkl0

/-- Reading the section back out of a successful `setInFoundSection`: the
extract contains the canonical `key = value` line. -/
theorem sifs_read {sn key fv c : Str}
    (hsn : secNameOk sn)
    (hsafe : ∀ ch ∈ key, safeChar ch = true) (hkeyne : key ≠ [])
    (hfv : goodVal fv = true)
    (hndc : ∀ ch ∈ c, ch ≠ '$')
    {r : Str} (hr : setInFoundSection sn key fv c = some r) :
    ∃ t, getConfigSection sn (some r) = some (.inl t) ∧
      containsSubstr t (kvLine key fv) = true := by
  cases hfp : findPat ('[' :: sn ++ [']']) c with
  | none =>
    unfold setInFoundSection at hr
    rw [hfp] at hr
    cases hr
  | some u =>
    obtain ⟨pre, hdr, tail⟩ := u
    have hrest' : tail.dropWhile (· ≠ '[') = [] ∨
        ∃ d rt, tail.dropWhile (· ≠ '[') = d :: rt ∧ (fun x => decide (x ≠ '[')) d = false := by
      rcases hdw : tail.dropWhile (· ≠ '[') with _ | ⟨d, rt⟩
      · exact Or.inl rfl
      · exact Or.inr ⟨d, rt, rfl, dropWhile_head_prop hdw⟩
    cases hki : findKeyIdx key (tail.takeWhile (· ≠ '[')) with
    | some i =>
      obtain ⟨x, y, hnb, h1, _, h3⟩ := sifs_first_key hsn hsafe hkeyne hfv hndc hfp hki
      cases Option.some.inj (hr.symm.trans h1)
      simp only [getConfigSection, h3]
      refine ⟨_, rfl, ?_⟩
      rw [takeWhile_all (fun ch hm => by simp [hnb ch hm]) _, takeWhile_head_false hrest',
        List.append_nil]
      exact kv_trim_contains x y hsafe hkeyne hfv
    | none =>
      obtain ⟨x, y, hnb, h1, _, h3⟩ := sifs_first_nokey hsn hsafe hkeyne hfv hndc hfp hki
      cases Option.some.inj (hr.symm.trans h1)
      simp only [getConfigSection, h3]
      refine ⟨_, rfl, ?_⟩
      rw [takeWhile_all (fun ch hm => by simp [hnb ch hm]) _, takeWhile_head_false hrest',
        List.append_nil]
      exact kv_trim_contains x y hsafe hkeyne hfv

/-- Reading the section back out of a freshly appended block. -/
theorem append_read {sn key fv c : Str}
    (hsn : secNameOk sn)
    (hsafe : ∀ ch ∈ key, safeChar ch = true) (hkeyne : key ≠ [])
    (hfv : goodVal fv = true)
    (hfp : findPat ('[' :: sn ++ [']']) c = none) :
    ∃ t, getConfigSection sn
        (some (c ++ '\n' :: '[' :: sn ++ ']' :: '\n' :: key ++ ' ' :: '=' :: ' ' :: fv ++
          ['\n'])) = some (.inl t) ∧
      containsSubstr t (kvLine key fv) = true := by
  have hmid : ∀ ch ∈ sn, ch ≠ ']' := secNameOk_ne hsn (by decide) (by decide)
  have hfvl := hfv
  unfold goodVal at hfvl
  simp only [Bool.and_eq_true] at hfvl
  obtain ⟨⟨hfvne, hfvall⟩, _⟩ := hfvl
  have hfv_nb : ∀ ch ∈ fv, ch ≠ '[' := by
    intro ch hm
    have hch := List.all_eq_true.mp hfvall ch hm
    simp only [Bool.not_eq_true', Bool.or_eq_false_iff, decide_eq_false_iff_not] at hch
    exact hch.1.1
  set z : Str := '\n' :: (key ++ ' ' :: '=' :: ' ' :: (fv ++ ['\n'])) with hz_def
  have hz_nb : ∀ ch ∈ z, ch ≠ '[' := by
    intro ch hm
    rw [hz_def] at hm
    simp only [List.mem_cons, List.mem_append, List.mem_singleton] at hm
    rcases hm with rfl | hk | rfl | rfl | rfl | hfv' | rfl | h0
    · decide
    · exact safeChar_ne (hsafe ch hk) (by decide)
    · decide
    · decide
    · decide
    · exact hfv_nb ch hfv'
    · decide
    · simp at h0
  have hshape : (c ++ '\n' :: '[' :: sn ++ ']' :: '\n' :: key ++ ' ' :: '=' :: ' ' :: fv ++
      ['\n'] : Str) = c ++ '\n' :: ('[' :: sn ++ [']']) ++ z := by
    rw [hz_def]
    simp
  rw [hshape]
  have hfindN := findAppend hmid (findPat_none_sound hfp) (z := z)
  simp only [getConfigSection, hfindN]
  refine ⟨_, rfl, ?_⟩
  have htw : z.takeWhile (· ≠ '[') = z := by
    have h := takeWhile_all (p := fun x => decide (x ≠ '['))
      (x := z) (fun ch hm => by simp [hz_nb ch hm]) []
    simpa using h
  rw [htw, show z = ['\n'] ++ kvLine key fv ++ ['\n'] from by rw [hz_def]; simp [kvLine]]
  exact kv_trim_contains ['\n'] ['\n'] hsafe hkeyne hfv

/-- A pattern opening with the literal `[` begins nowhere in `[`-free text. -/
theorem patAgrees_bracket_false {r u : Str} (h : ∀ ch ∈ u, ch ≠ '[') (j : Nat) :
    patAgrees ('[' :: r) (u.drop j) = false := by
  cases hu : u.drop j with
  | nil => rfl
  | cons d t =>
    have hd : d ≠ '[' := h d (List.drop_subset _ _ (by rw [hu]; exact List.mem_cons_self _ _))
    have hpc : patChar '[' d = false := by simp [patChar, Ne.symm hd]
    simp [patAgrees, hpc]

/-- The nested-mapping branch of `getConfigSection` on content made of a
single nested section `[sec.x]`: `[sec]` matches nowhere (the `]` of the
pattern would land on the `.`) and the scan collects `x ↦ trim(body)`. -/
theorem getSection_nested_single {sec x body : Str}
    (hsec : safeSeg sec = true) (hx : safeSeg x = true)
    (hbody : ∀ ch ∈ body, ch ≠ '[') :
    getConfigSection sec (some ('[' :: sec ++ '.' :: x ++ ']' :: body)) =
      some (.inr [(x, jsTrim body)]) := by
  have hsec' := safeSeg_all hsec
  have hx' := safeSeg_all hx
  set N : Str := '[' :: sec ++ '.' :: x ++ ']' :: body with hN_def
  have htail_nb : ∀ ch ∈ (sec ++ '.' :: x ++ ']' :: body : Str), ch ≠ '[' := by
    intro ch hm
    simp only [List.mem_append, List.mem_cons] at hm
    rcases hm with (hm1 | rfl | hm2) | (rfl | hm3)
    · exact safeChar_ne (hsec' ch hm1) (by decide)
    · decide
    · exact safeChar_ne (hx' ch hm2) (by decide)
    · decide
    · exact hbody ch hm3
  have hall : ∀ i, patAgrees ('[' :: sec ++ [']']) (N.drop i) = false := by
    intro i
    cases i with
    | zero =>
      rw [List.drop_zero]
      have hc1 : N[sec.length + 1]? = some '.' := by
        rw [hN_def, show ('[' :: sec ++ '.' :: x ++ ']' :: body : Str) =
          ('[' :: sec) ++ ('.' :: x ++ ']' :: body) from by simp,
          show sec.length + 1 = ('[' :: sec : Str).length + 0 from by simp,
          getq_append_right]
        simp
      exact patAgrees_false_of_mismatch (@pat_last sec) hc1 (by decide)
    | succ j =>
      have hdj : N.drop (j + 1) = (sec ++ '.' :: x ++ ']' :: body).drop j := by
        rw [hN_def, show ('[' :: sec ++ '.' :: x ++ ']' :: body : Str) =
          '[' :: (sec ++ '.' :: x ++ ']' :: body) from by simp, List.drop_succ_cons]
      rw [hdj]
      exact patAgrees_bracket_false htail_nb j
  have hfp : findPat ('[' :: sec ++ [']']) N = none := by
    cases hfp : findPat ('[' :: sec ++ [']']) N with
    | none => rfl
    | some u =>
      obtain ⟨pre, m, tail⟩ := u
      obtain ⟨hceq, hpa, _, _⟩ := findPat_sound hfp
      have hdrop : N.drop pre.length = m ++ tail := by
        rw [hceq, List.append_assoc]
        exact List.drop_left _ _
      rw [← hdrop, hall pre.length] at hpa
      cases hpa
  have hbw : begWith ('[' :: sec ++ ['.']) N = true := by
    rw [hN_def, show ('[' :: sec ++ '.' :: x ++ ']' :: body : Str) =
      ('[' :: sec ++ ['.']) ++ (x ++ ']' :: body) from by simp]
    exact begWith_append_self _ _
  have hd2 : N.drop (sec.length + 2) = x ++ ']' :: body := by
    rw [hN_def, show ('[' :: sec ++ '.' :: x ++ ']' :: body : Str) =
      ('[' :: sec ++ ['.']) ++ (x ++ ']' :: body) from by simp]
    exact List.drop_left' (by simp)
  have htk : (x ++ ']' :: body).takeWhile (· ≠ ']') = x := by
    rw [takeWhile_all (fun ch hm => by
        simp [safeChar_ne (hx' ch hm) (by decide : safeChar ']' = false)]) _,
      takeWhile_head_false (Or.inr ⟨']', body, rfl, by decide⟩), List.append_nil]
  have hnh : nestedHead? sec N = some (x, body) := by
    unfold nestedHead?
    rw [hbw, if_pos rfl, hd2, htk, List.drop_left]
    rfl
  have htkb : body.takeWhile (· ≠ '[') = body := by
    have h := takeWhile_all (p := fun ch => decide (ch ≠ '['))
      (x := body) (fun ch hm => by simp [hbody ch hm]) []
    simpa using h
  have hdwb : body.dropWhile (· ≠ '[') = [] := by
    have h := dropWhile_all (p := fun ch => decide (ch ≠ '['))
      (x := body) (fun ch hm => by simp [hbody ch hm]) []
    simpa using h
  have hcollect : nestedCollect sec N = [(x, jsTrim body)] := by
    obtain ⟨f, hf⟩ : ∃ f, N.length = f + 1 := by
      refine ⟨(sec ++ '.' :: x ++ ']' :: body : Str).length, ?_⟩
      rw [hN_def, show ('[' :: sec ++ '.' :: x ++ ']' :: body : Str) =
        '[' :: (sec ++ '.' :: x ++ ']' :: body) from by simp]
      simp
    unfold nestedCollect
    rw [hf]
    simp only [nestedCollectAux, hnh]
    rw [htkb, hdwb]
    cases f with
    | zero => rfl
    | succ f' => rfl
  simp only [getConfigSection, hfp, hcollect]
  rfl

end TomlPatch

namespace TomlPatch

/-- C1, counterexample: the four-segment path `a.b.c.d` does not leave the
content unchanged — `updateTomlValue` writes `c = 1` into a `[a.b]` section. -/
theorem C1_counterexample :
    (splitOnDot (S "a.b.c.d")).length = 4 ∧
    updateTomlValue (S "") (S "a.b.c.d") (S "1") ≠ S "" ∧
    updateTomlValue (S "") (S "a.b.c.d") (S "1") = S "\n[a.b]\nc = 1\n" := by decide

/-- C1, amended: a one-segment path is a no-op, and a path with three or more
segments behaves exactly like the path made of its first three segments
(`parts[0].parts[1]` as section, `parts[2]` as key, the rest ignored). -/
theorem C1_amended (c p v : Str) :
    ((splitOnDot p).length = 1 → updateTomlValue c p v = c) ∧
    (∀ s0 s1 s2 more, splitOnDot p = s0 :: s1 :: s2 :: more →
      updateTomlValue c p v = updateTomlValue c (s0 ++ '.' :: (s1 ++ '.' :: s2)) v) := by
  constructor
  · exact fun h => utv_one_eq c v h
  · intro s0 s1 s2 more hsp
    have h0 : ∀ ch ∈ s0, ch ≠ '.' :=
      splitOnDot_pieces (by rw [hsp]; exact List.mem_cons_self _ _)
    have h1 : ∀ ch ∈ s1, ch ≠ '.' :=
      splitOnDot_pieces (by rw [hsp]; exact List.mem_cons_of_mem _ (List.mem_cons_self _ _))
    have h2 : ∀ ch ∈ s2, ch ≠ '.' :=
      splitOnDot_pieces (by
        rw [hsp]
        exact List.mem_cons_of_mem _ (List.mem_cons_of_mem _ (List.mem_cons_self _ _)))
    have hq : splitOnDot (s0 ++ '.' :: (s1 ++ '.' :: s2)) = [s0, s1, s2] := by
      rw [splitOnDot_append _ h0, splitOnDot_append _ h1, splitOnDot_no_dot h2]
    rw [utv_three_eq c v hsp, utv_three_eq c v hq]

/-- C1, witness: concrete instances of both amended conjuncts. -/
theorem C1_witness :
    updateTomlValue (S "x = 1\n") (S "nodots") (S "2") = S "x = 1\n" ∧
    updateTomlValue (S "") (S "a.b.c.d") (S "1") =
      updateTomlValue (S "") (S "a" ++ '.' :: (S "b" ++ '.' :: S "c")) (S "1") :=
  ⟨(C1_amended (S "x = 1\n") (S "nodots") (S "2")).1 (by decide),
   (C1_amended (S "") (S "a.b.c.d") (S "1")).2 (S "a") (S "b") (S "c") [S "d"] (by decide)⟩

/-- C2, counterexample: the nested scan is non-overlapping (`exec` with the
`g` flag resumes after each match extent), so content that does contain the
nested header `[s.k]` can fail the scan and be modified after all. -/
theorem C2_counterexample :
    containsSubstr (S "[s.[s.k]]") (S "[s.k]") = true ∧
    containsSubstr (S "[s.[s.k]]") (S "[s]") = false ∧
    updateTomlValue (S "[s.[s.k]]") (S "s.k") (S "v") ≠ S "[s.[s.k]]" := by decide

/-- C2, amended: when the top-level section regex finds no match and the
nested scan (as the code actually runs it) reports a nested section whose
first capture equals the key, the two-segment call returns the content
unchanged. -/
theorem C2_amended (c p v sec key : Str)
    (hsplit : splitOnDot p = [sec, key])
    (hfind : findPat ('[' :: sec ++ [']']) c = none)
    (hscan : nestedScanFound sec key c = true) :
    updateTomlValue c p v = c := by
  rw [utv_two_eq c v hsplit]
  have hsifs : setInFoundSection sec key (formatValue v) c = none := by
    unfold setInFoundSection
    rw [hfind]
  rw [hsifs, hscan]
  simp

/-- C2, witness: a genuine nested-collision no-op. -/
theorem C2_witness :
    updateTomlValue (S "[s.k]\na = 1\n") (S "s.k") (S "v") = S "[s.k]\na = 1\n" :=
  C2_amended (S "[s.k]\na = 1\n") (S "s.k") (S "v") (S "s") (S "k")
    (by decide) (by decide) (by decide)

/-- C3, counterexample: idempotence fails for a bracketed array value — the
value's `[` truncates the section span on the second pass, so the second
application appends the value again. -/
theorem C3_counterexample :
    updateTomlValue (updateTomlValue (S "") (S "s.k") (S "[1]")) (S "s.k") (S "[1]") ≠
      updateTomlValue (S "") (S "s.k") (S "[1]") := by decide

/-- C3, amended: `updateTomlValue` is idempotent on two- and three-segment
paths made of alphanumeric/underscore segments, for content free of `$` and
values whose formatted form is a non-empty single line without `[`, `$` or a
trailing white-space character. -/
theorem C3_amended (c p v : Str)
    (hc : noDollar c = true)
    (hv : goodVal (formatValue v) = true)
    (hsegs : ∀ s ∈ splitOnDot p, safeSeg s = true)
    (hlen : (splitOnDot p).length = 2 ∨ (splitOnDot p).length = 3) :
    updateTomlValue (updateTomlValue c p v) p v = updateTomlValue c p v := by
  have hc' := noDollar_all hc
  rcases hsp : splitOnDot p with _ | ⟨s0, _ | ⟨s1, _ | ⟨s2, rest⟩⟩⟩
  · rw [hsp] at hlen
    simp at hlen
  · rw [hsp] at hlen
    simp at hlen
  · exact utv_idem_two hsp (hsegs s0 (by rw [hsp]; exact List.mem_cons_self _ _))
      (hsegs s1 (by rw [hsp]; exact List.mem_cons_of_mem _ (List.mem_cons_self _ _))) hc' hv
  · exact utv_idem_three hsp
      (hsegs s0 (by rw [hsp]; exact List.mem_cons_self _ _))
      (hsegs s1 (by rw [hsp]; exact List.mem_cons_of_mem _ (List.mem_cons_self _ _)))
      (hsegs s2 (by
        rw [hsp]
        exact List.mem_cons_of_mem _ (List.mem_cons_of_mem _ (List.mem_cons_self _ _))))
      hc' hv

/-- C3, witness: idempotence at a concrete quoted-string update. -/
theorem C3_witness :
    updateTomlValue (updateTomlValue (S "") (S "s.k") (S "v")) (S "s.k") (S "v") =
      updateTomlValue (S "") (S "s.k") (S "v") :=
  C3_amended (S "") (S "s.k") (S "v") (by decide) (by decide) (by decide) (by decide)

/-- C4, counterexample: after setting `s.k` to the array literal `[1]`, reading
section `s` back yields `k =` — the `[` of the value truncates the section
span, so the extraction does not carry the value. -/
theorem C4_counterexample :
    getConfigSection (S "s") (some (updateTomlValue (S "") (S "s.k") (S "[1]"))) =
      some (.inl (S "k =")) ∧
    containsSubstr (S "k =") (S "[1]") = false := by decide

/-- C4, amended: for two-segment paths (excluding the nested-collision no-op
case) and for paths of three or more segments, all with alphanumeric/underscore
segments, `$`-free content and a value whose formatted form is a well-behaved
single line, reading the affected section back from `updateTomlValue`'s output
yields a string extract containing the line `key = <formatted value>`. -/
theorem C4_amended (c p v : Str)
    (hc : noDollar c = true)
    (hfv : goodVal (formatValue v) = true) :
    (∀ sec key, splitOnDot p = [sec, key] →
      safeSeg sec = true → safeSeg key = true →
      ¬(findPat ('[' :: sec ++ [']']) c = none ∧ nestedScanFound sec key c = true) →
      ∃ t, getConfigSection sec (some (updateTomlValue c p v)) = some (.inl t) ∧
        containsSubstr t (kvLine key (formatValue v)) = true) ∧
    (∀ s0 s1 s2 more, splitOnDot p = s0 :: s1 :: s2 :: more →
      safeSeg s0 = true → safeSeg s1 = true → safeSeg s2 = true →
      ∃ t, getConfigSection (s0 ++ '.' :: s1) (some (updateTomlValue c p v)) =
          some (.inl t) ∧
        containsSubstr t (kvLine s2 (formatValue v)) = true) := by
  have hc' := noDollar_all hc
  constructor
  · intro sec key hsplit hsec hkey hnc
    have hsn := secNameOk_of_safe hsec
    have hsafe := safeSeg_all hkey
    have hkeyne := safeSeg_ne_nil hkey
    rw [utv_two_eq c v hsplit]
    cases hs : setInFoundSection sec key (formatValue v) c with
    | some r => exact sifs_read hsn hsafe hkeyne hfv hc' hs
    | none =>
      cases hns : nestedScanFound sec key c with
      | true => exact absurd ⟨sifs_none_inv hs, hns⟩ hnc
      | false => exact append_read hsn hsafe hkeyne hfv (sifs_none_inv hs)
  · intro s0 s1 s2 more hsplit hs0 hs1 hs2
    have hsn := secNameOk_join hs0 hs1
    have hsafe := safeSeg_all hs2
    have hkeyne := safeSeg_ne_nil hs2
    rw [utv_three_eq c v hsplit]
    cases hs : setInFoundSection (s0 ++ '.' :: s1) s2 (formatValue v) c with
    | some r => exact sifs_read hsn hsafe hkeyne hfv hc' hs
    | none => exact append_read hsn hsafe hkeyne hfv (sifs_none_inv hs)

/-- C4, witness: setting and reading back `s.k = "v"` and `a.b.c = "v"`. -/
theorem C4_witness :
    (∃ t, getConfigSection (S "s") (some (updateTomlValue (S "") (S "s.k") (S "v"))) =
        some (.inl t) ∧
      containsSubstr t (kvLine (S "k") (formatValue (S "v"))) = true) ∧
    (∃ t, getConfigSection (S "a" ++ '.' :: S "b")
        (some (updateTomlValue (S "") (S "a.b.c") (S "v"))) = some (.inl t) ∧
      containsSubstr t (kvLine (S "c") (formatValue (S "v"))) = true) :=
  ⟨(C4_amended (S "") (S "s.k") (S "v") (by decide) (by decide)).1 (S "s") (S "k")
      (by decide) (by decide) (by decide) (by decide),
   (C4_amended (S "") (S "a.b.c") (S "v") (by decide) (by decide)).2 (S "a") (S "b") (S "c")
      [] (by decide) (by decide) (by decide) (by decide)⟩

/-- C5: the value written by `updateTomlValue` (here on a fresh section) is
the raw value unquoted when it is `true`/`false` or numeric, unquoted when it
is a `[...]` literal, and double-quoted otherwise. -/
theorem C5 (p sec key v : Str) (hsplit : splitOnDot p = [sec, key]) :
    updateTomlValue (S "") p v =
      '\n' :: '[' :: sec ++ ']' :: '\n' :: key ++ ' ' :: '=' :: ' ' ::
        (if v = S "true" || v = S "false" || jsNumeric v then v
         else if v.head? = some '[' && v.getLast? = some ']' then v
         else '"' :: v ++ ['"']) ++ ['\n'] := by
  rw [utv_two_eq _ v hsplit]
  rfl

/-- C5, witness: a plain string value gets double quotes. -/
theorem C5_witness :
    updateTomlValue (S "") (S "s.k") (S "x") =
      '\n' :: '[' :: S "s" ++ ']' :: '\n' :: S "k" ++ ' ' :: '=' :: ' ' ::
        (if S "x" = S "true" || S "x" = S "false" || jsNumeric (S "x") then S "x"
         else if (S "x").head? = some '[' && (S "x").getLast? = some ']' then S "x"
         else '"' :: S "x" ++ ['"']) ++ ['\n'] :=
  C5 (S "s.k") (S "s") (S "k") (S "x") (by decide)

/-- C6: folding `ENV_MAPPINGS` in declaration order with both `llm.api_key`
aliases set leaves the later-declared `OPENMANUS_LLM_API_KEY` value in the
result; an alias set to the empty string is skipped, leaving the other one. -/
theorem C6 (v1 v2 : String) (h1 : v1 ≠ "") (h2 : v2 ≠ "")
    (hg1 : goodVal (formatValue (S v1)) = true)
    (hg2 : goodVal (formatValue (S v2)) = true) :
    applyEnvOverrides
        (fun n => if n = "OPENAI_API_KEY" then some v1
          else if n = "OPENMANUS_LLM_API_KEY" then some v2 else none) (S "") =
      '\n' :: '[' :: S "llm" ++ ']' :: '\n' :: S "api_key" ++ ' ' :: '=' :: ' ' ::
        formatValue (S v2) ++ ['\n'] ∧
    applyEnvOverrides
        (fun n => if n = "OPENAI_API_KEY" then some v1
          else if n = "OPENMANUS_LLM_API_KEY" then some "" else none) (S "") =
      '\n' :: '[' :: S "llm" ++ ']' :: '\n' :: S "api_key" ++ ' ' :: '=' :: ' ' ::
        formatValue (S v1) ++ ['\n'] := by
  constructor
  · have hfold : applyEnvOverrides
        (fun n => if n = "OPENAI_API_KEY" then some v1
          else if n = "OPENMANUS_LLM_API_KEY" then some v2 else none) (S "") =
        updateTomlValue (updateTomlValue (S "") (S "llm.api_key") (S v1))
          (S "llm.api_key") (S v2) := by
      unfold applyEnvOverrides ENV_MAPPINGS
      simp only [List.foldl_cons, List.foldl_nil]
      simp [h1, h2]
    rw [hfold]
    exact utv_overwrite (S v1) (S v2) (by decide) (by decide) (by decide) hg1 hg2
  · have hfold : applyEnvOverrides
        (fun n => if n = "OPENAI_API_KEY" then some v1
          else if n = "OPENMANUS_LLM_API_KEY" then some "" else none) (S "") =
        updateTomlValue (S "") (S "llm.api_key") (S v1) := by
      unfold applyEnvOverrides ENV_MAPPINGS
      simp only [List.foldl_cons, List.foldl_nil]
      simp [h1]
    rw [hfold]
    exact utv_empty_append (S v1) (by decide)

/-- C6, witness: concrete alias values. -/
theorem C6_witness :
    applyEnvOverrides
        (fun n => if n = "OPENAI_API_KEY" then some "k1"
          else if n = "OPENMANUS_LLM_API_KEY" then some "k2" else none) (S "") =
      '\n' :: '[' :: S "llm" ++ ']' :: '\n' :: S "api_key" ++ ' ' :: '=' :: ' ' ::
        formatValue (S "k2") ++ ['\n'] ∧
    applyEnvOverrides
        (fun n => if n = "OPENAI_API_KEY" then some "k1"
          else if n = "OPENMANUS_LLM_API_KEY" then some "" else none) (S "") =
      '\n' :: '[' :: S "llm" ++ ']' :: '\n' :: S "api_key" ++ ' ' :: '=' :: ' ' ::
        formatValue (S "k1") ++ ['\n'] :=
  C6 "k1" "k2" (by decide) (by decide) (by decide) (by decide)

/-- C7: with no `[search]` section the pass appends the full default block
(engine `google`, google's URL, `lang`, `country`); with a `[search]` section
whose engine is set but `engine_url` missing, it splices in the URL derived
from the engine by the fixed lookup, defaulting to google's URL. -/
theorem C7 :
    (∀ c, containsSubstr c (S "[search]") = false →
      checkSearchEngineSettings c =
        c ++ S "\n[search]\nengine = \"google\"\nengine_url = \"https://www.google.com\"\nlang = \"ja\"\ncountry = \"jp\"\n") ∧
    (∀ e, safeSeg e = true →
      checkSearchEngineSettings (S "[search]\nengine = \"" ++ e ++ S "\"\n") =
        S "[search]\nengine = \"" ++ e ++ S "\"\nengine_url = \"" ++
          (if e = S "bing" then S "https://www.bing.com"
           else if e = S "duckduckgo" then S "https://duckduckgo.com"
           else if e = S "yahoo" then S "https://search.yahoo.com"
           else S "https://www.google.com") ++ S "\"\n") := by
  constructor
  · intro c h
    unfold checkSearchEngineSettings
    rw [h]
    rfl
  · intro e he
    have he' := safeSeg_all he
    have he_nq : ∀ ch ∈ e, ch ≠ '"' := fun ch hm => safeChar_ne (he' ch hm) (by decide)
    have hurl_nd : ∀ ch ∈ defaultUrlFor e, ch ≠ '$' := by
      unfold defaultUrlFor
      split_ifs <;> decide
    have hc_eq : (S "[search]\nengine = \"" ++ e ++ S "\"\n" : Str) =
        S "[search]\n" ++ (S "engine = \"" ++ (e ++ ['"', '\n'])) := rfl
    rw [hc_eq]
    set c : Str := S "[search]\n" ++ (S "engine = \"" ++ (e ++ ['"', '\n'])) with hc_def
    have hcontains : containsSubstr c (S "[search]") = true := by
      have h := containsSubstr_of_parts (x := []) (S "[search]")
        (S "\nengine = \"" ++ (e ++ ['"', '\n']))
      exact h
    have hurl_none : quotedValFirst (S "engine_url") c = none := by
      have hskip : quotedValFirst (S "engine_url") c =
          quotedValFirst (S "engine_url") (e ++ ['"', '\n']) := rfl
      rw [hskip, qvf_safe_skip e he']
      decide
    have hengine : quotedValFirst (S "engine") c = some e := by
      have hskip : quotedValFirst (S "engine") c =
          quotedValFirst (S "engine") (S "engine = \"" ++ (e ++ ['"', '\n'])) := rfl
      rw [hskip]
      refine qvf_some ?_ (qhm_engine_hit he_nq)
      intro h0
      rw [List.append_eq_nil] at h0
      exact absurd h0.1 (by decide)
    have hfp_c : findPat ('[' :: S "search" ++ [']']) c =
        some ([], '[' :: S "search" ++ [']'], S "\nengine = \"" ++ (e ++ ['"', '\n'])) := by
      have h := @findPat_complete ('[' :: S "search" ++ [']']) [] c
        (patAgrees_self_append ('[' :: S "search" ++ [']'])
          (S "\nengine = \"" ++ (e ++ ['"', '\n'])))
        (fun i hi => by simp at hi)
      exact h
    have htail_nb : ∀ ch ∈ (S "\nengine = \"" ++ (e ++ ['"', '\n']) : Str), ch ≠ '[' := by
      intro ch hm
      rw [List.mem_append] at hm
      rcases hm with h1 | h2
      · exact (by decide : ∀ ch ∈ (S "\nengine = \"" : Str), ch ≠ '[') ch h1
      · rw [List.mem_append] at h2
        rcases h2 with h3 | h4
        · exact safeChar_ne (he' ch h3) (by decide)
        · exact (by decide : ∀ ch ∈ (['"', '\n'] : Str), ch ≠ '[') ch h4
    have htw : (S "\nengine = \"" ++ (e ++ ['"', '\n']) : Str).takeWhile (· ≠ '[') =
        S "\nengine = \"" ++ (e ++ ['"', '\n']) := by
      have h := takeWhile_all (p := fun x => decide (x ≠ '['))
        (x := S "\nengine = \"" ++ (e ++ ['"', '\n']))
        (fun ch hm => by simp [htail_nb ch hm]) []
      simpa using h
    have hdw : (S "\nengine = \"" ++ (e ++ ['"', '\n']) : Str).dropWhile (· ≠ '[') = [] := by
      have h := dropWhile_all (p := fun x => decide (x ≠ '['))
        (x := S "\nengine = \"" ++ (e ++ ['"', '\n']))
        (fun ch hm => by simp [htail_nb ch hm]) []
      simpa using h
    have hy_nd : ∀ ch ∈ (S "engine_url = \"" ++ (defaultUrlFor e ++ S "\"\n") : Str),
        ch ≠ '$' := by
      intro ch hm
      rw [List.mem_append] at hm
      rcases hm with h1 | h2
      · exact (by decide : ∀ ch ∈ (S "engine_url = \"" : Str), ch ≠ '$') ch h1
      · rw [List.mem_append] at h2
        rcases h2 with h3 | h4
        · exact hurl_nd ch h3
        · exact (by decide : ∀ ch ∈ (S "\"\n" : Str), ch ≠ '$') ch h4
    have hrso : replaceSecOnce (S "search")
        (S "[search]$1engine_url = \"" ++ defaultUrlFor e ++ S "\"\n") c =
        S "[search]\nengine = \"" ++ e ++ S "\"\nengine_url = \"" ++ defaultUrlFor e ++
          S "\"\n" := by
      simp only [replaceSecOnce, hfp_c]
      rw [htw, hdw]
      rw [show (S "[search]$1engine_url = \"" ++ defaultUrlFor e ++ S "\"\n" : Str) =
        S "[search]" ++ '$' :: '1' :: (S "engine_url = \"" ++ (defaultUrlFor e ++ S "\"\n"))
        from rfl]
      rw [subst_dollar1 (by decide) hy_nd]
      simp only [List.nil_append, List.append_nil, List.append_assoc]
      rfl
    unfold checkSearchEngineSettings
    rw [hcontains]
    simp only [Bool.not_true, Bool.false_eq_true, if_false]
    rw [hurl_none, hengine]
    simp only [Option.getD_some]
    rw [hrso]
    rfl

/-- C7, witness: the append branch on searchless content and the bing URL
derivation. -/
theorem C7_witness :
    checkSearchEngineSettings (S "x = 1\n") =
      S "x = 1\n" ++ S "\n[search]\nengine = \"google\"\nengine_url = \"https://www.google.com\"\nlang = \"ja\"\ncountry = \"jp\"\n" ∧
    checkSearchEngineSettings (S "[search]\nengine = \"" ++ S "bing" ++ S "\"\n") =
      S "[search]\nengine = \"" ++ S "bing" ++ S "\"\nengine_url = \"" ++
        (if S "bing" = S "bing" then S "https://www.bing.com"
         else if S "bing" = S "duckduckgo" then S "https://duckduckgo.com"
         else if S "bing" = S "yahoo" then S "https://search.yahoo.com"
         else S "https://www.google.com") ++ S "\"\n" :=
  ⟨C7.1 (S "x = 1\n") (by decide), C7.2 (S "bing") (by decide)⟩

/-- C8, counterexample: the interpolated `.` of the section name is a regex
wildcard (with the `s` flag it matches any character), so `[axb]` is found
when section `a.b` is requested, although neither `[a.b]` nor any `[a.b.X]`
occurs in the content. -/
theorem C8_counterexample :
    containsSubstr (S "[axb]\nk = 1") (S "[a.b]") = false ∧
    containsSubstr (S "[axb]\nk = 1") (S "[a.b.") = false ∧
    getConfigSection (S "a.b") (some (S "[axb]\nk = 1")) = some (.inl (S "k = 1")) := by
  decide

/-- C8, amended: for a dot-free alphanumeric/underscore section name the
contract holds: `none` for an unreadable file, the trimmed span after the
first literal `[sec]` when one occurs, `none` when neither `[sec]` nor any
`[sec.` occurs, and on content made of a single nested section `[sec.x]` a
mapping from `x` to its trimmed body. -/
theorem C8_amended (sec : Str) (hsafe : safeSeg sec = true) :
    getConfigSection sec none = none ∧
    (∀ content pre tail, content = pre ++ ('[' :: sec ++ [']']) ++ tail →
      (∀ i < pre.length, begWith ('[' :: sec ++ [']']) (content.drop i) = false) →
      getConfigSection sec (some content) =
        some (.inl (jsTrim (tail.takeWhile (· ≠ '['))))) ∧
    (∀ content, containsSubstr content ('[' :: sec ++ [']']) = false →
      containsSubstr content ('[' :: sec ++ ['.']) = false →
      getConfigSection sec (some content) = none) ∧
    (∀ x body, safeSeg x = true → (∀ ch ∈ body, ch ≠ '[') →
      getConfigSection sec (some ('[' :: sec ++ '.' :: x ++ ']' :: body)) =
        some (.inr [(x, jsTrim body)])) := by
  have hdotfree : ∀ ch ∈ ('[' :: sec ++ [']'] : Str), ch ≠ '.' := by
    intro ch hm
    simp only [List.mem_cons, List.mem_append, List.mem_singleton] at hm
    rcases hm with (rfl | hm') | (rfl | h0)
    · decide
    · exact safeChar_ne (safeSeg_all hsafe ch hm') (by decide)
    · decide
    · simp at h0
  refine ⟨rfl, ?_, ?_, fun x body hx hbody => getSection_nested_single hsafe hx hbody⟩
  · intro content pre tail hc hmin
    have hfp : findPat ('[' :: sec ++ [']']) content =
        some (pre, '[' :: sec ++ [']'], tail) := by
      subst hc
      have hmin' : ∀ i < pre.length,
          patAgrees ('[' :: sec ++ [']']) ((pre ++ (('[' :: sec ++ [']']) ++ tail)).drop i) =
            false := by
        intro i hi
        rw [patAgrees_eq_begWith hdotfree, ← List.append_assoc]
        exact hmin i hi
      have h := findPat_complete (patAgrees_self_append ('[' :: sec ++ [']']) tail) hmin'
      rw [List.append_assoc]
      rw [h, List.take_left, List.drop_left]
    simp only [getConfigSection, hfp]
  · intro content h1 h2
    have hfp : findPat ('[' :: sec ++ [']']) content = none := by
      cases hfp : findPat ('[' :: sec ++ [']']) content with
      | none => rfl
      | some t =>
        obtain ⟨pre, m, tail⟩ := t
        obtain ⟨hceq, hpa, _, _⟩ := findPat_sound hfp
        have hdrop : content.drop pre.length = m ++ tail := by
          rw [hceq, List.append_assoc]
          exact List.drop_left _ _
        have hbw : begWith ('[' :: sec ++ [']']) (content.drop pre.length) = true := by
          rw [hdrop, ← patAgrees_eq_begWith hdotfree]
          exact hpa
        rw [containsSubstr_none h1 pre.length] at hbw
        cases hbw
    have hnc := nestedCollect_nil h2
    simp only [getConfigSection, hfp, hnc]
    rfl

/-- C8, witness: an unreadable file, a found top-level section, an
absent-everywhere section name, and a nested-mapping collection. -/
theorem C8_witness :
    getConfigSection (S "s") none = none ∧
    getConfigSection (S "s") (some (S "x[s]k = 1")) =
      some (.inl (jsTrim ((S "k = 1").takeWhile (· ≠ '[')))) ∧
    getConfigSection (S "s") (some (S "[t]\na = 1\n")) = none ∧
    getConfigSection (S "s") (some ('[' :: S "s" ++ '.' :: S "x" ++ ']' :: S "\nk = 1\n")) =
      some (.inr [(S "x", jsTrim (S "\nk = 1\n"))]) := by
  have h := C8_amended (S "s") (by decide)
  exact ⟨h.1, h.2.1 (S "x[s]k = 1") (S "x") (S "k = 1") (by decide) (by decide),
    h.2.2.1 (S "[t]\na = 1\n") (by decide) (by decide),
    h.2.2.2 (S "x") (S "\nk = 1\n") (by decide) (by decide)⟩

/-- C9: the key regex is unanchored, so setting `search.url` on a section that
already holds `engine_url` rewrites the `engine_url` assignment instead of
appending a `url` key. -/
theorem C9 :
    updateTomlValue (S "[search]\nengine_url = \"x\"\n") (S "search.url") (S "y") =
      S "[search]\nengine_url = \"y\"\n" ∧
    containsSubstr
      (updateTomlValue (S "[search]\nengine_url = \"x\"\n") (S "search.url") (S "y"))
      (S "\nurl") = false := by decide

/-- C10: the browser backfill tests `timeout` against the whole document, so a
`timeout` assignment in `[sandbox]` suppresses the `[browser]` backfill of
`timeout = 30000`, while `retry_count` and `retry_delay` are still added. -/
theorem C10 :
    checkBrowserSettings (S "[browser]\nheadless = true\n[sandbox]\ntimeout = 60\n") =
      S "[browser]\nheadless = true\nretry_count = 3\nretry_delay = 1000\n[sandbox]\ntimeout = 60\n" ∧
    containsSubstr
      (checkBrowserSettings (S "[browser]\nheadless = true\n[sandbox]\ntimeout = 60\n"))
      (S "timeout = 30000") = false := by decide

end TomlPatch
